import Mathlib

/-!
Verification of the TML template engine (parser, directive compiler semantics,
component renderer, asset injection) against its natural-language specification.

Strings from the source are modelled as `List Char` (`Str`).  Each definition
translates one function of the source; the corresponding file and function are
named in its doc comment.
-/

abbrev Str := List Char

namespace Tml

/-! ### helpers.ts : escapeHtml -/

/-- The character class of `HTML_ESCAPE_REGEX` (`/[&<>"']/g`) in `src/helpers.ts`. -/
def isEscapeChar (c : Char) : Bool :=
  c = '&' ∨ c = '<' ∨ c = '>' ∨ c = '"' ∨ c = '\x27'

/-- `HTML_ESCAPE_MAP` of `src/helpers.ts`. -/
def HTML_ESCAPE_MAP (c : Char) : Str :=
  if c = '&' then "&amp;".toList
  else if c = '<' then "&lt;".toList
  else if c = '>' then "&gt;".toList
  else if c = '"' then "&quot;".toList
  else if c = '\x27' then "&#39;".toList
  else [c]

/-- `str.replace(HTML_ESCAPE_REGEX, (char) => HTML_ESCAPE_MAP[char])` of
`src/helpers.ts`: a single left-to-right pass; replacement text is emitted and
never rescanned (JS `String.replace` with a global one-character class). -/
def escapeHtmlStr : Str → Str
  | [] => []
  | c :: rest => (if isEscapeChar c then HTML_ESCAPE_MAP c else [c]) ++ escapeHtmlStr rest

/-! ### parser.ts : parse -/

/-- JS `String.prototype.trim` whitespace test (the whitespace characters that
occur in template sources; the full JS set also has exotic Unicode spaces). -/
def isWs (c : Char) : Bool :=
  c = ' ' ∨ c = '\t' ∨ c = '\n' ∨ c = '\r' ∨ c = '\x0b' ∨ c = '\x0c'

/-- `String.prototype.trim`. -/
def trimStr (s : Str) : Str :=
  ((s.dropWhile isWs).reverse.dropWhile isWs).reverse

/-- `String.prototype.indexOf(pat)`: index of the first occurrence of `pat`,
`none` when absent. -/
def findSub (pat : Str) : Str → Option Nat
  | [] => if pat.isPrefixOf [] then some 0 else none
  | s@(_ :: t) =>
    if pat.isPrefixOf s then some 0
    else (findSub pat t).map (· + 1)

/-- One attempt of the lazy regex `open([\s\S]*?)close` at the current start
position: the opening delimiter must match here and the closing delimiter must
occur afterwards; lazy matching yields the content up to the first close. -/
def tryMatchAt (op cl s : Str) : Option Str :=
  if op.isPrefixOf s then
    (findSub cl (s.drop op.length)).map (fun j => (s.drop op.length).take j)
  else none

/-- `source.match(/open([\s\S]*?)close/)`: the regex engine tries successive
start positions left to right (backtracking past openers with no later closer)
and returns the first successful lazy match's captured group. -/
def regexMatchFirst (op cl : Str) : Str → Option Str
  | [] => tryMatchAt op cl []
  | s@(_ :: t) =>
    match tryMatchAt op cl s with
    | some content => some content
    | none => regexMatchFirst op cl t

/-- `ParsedComponent` of `src/types.ts`. -/
structure ParsedComponent where
  template : Str
  style : Str
  script : Str
  deriving DecidableEq, Repr

def TEMPLATE_OPEN : Str := "<template>".toList
def TEMPLATE_CLOSE : Str := "</template>".toList
def STYLE_OPEN : Str := "<style>".toList
def STYLE_CLOSE : Str := "</style>".toList
def SCRIPT_OPEN : Str := "<script>".toList
def SCRIPT_CLOSE : Str := "</script>".toList

/-- One block of `parse` in `src/parser.ts`: `match ? match[1].trim() : ""`. -/
def matchBlock (op cl s : Str) : Str :=
  match regexMatchFirst op cl s with
  | some content => trimStr content
  | none => []

/-- `parse` of `src/parser.ts`. -/
def parse (source : Str) : ParsedComponent :=
  { template := matchBlock TEMPLATE_OPEN TEMPLATE_CLOSE source
    style := matchBlock STYLE_OPEN STYLE_CLOSE source
    script := matchBlock SCRIPT_OPEN SCRIPT_CLOSE source }

/-- Modelled from the spec: "each field is the trimmed contents of the first
(non-greedy) occurrence of its fixed literal block delimiters, or the empty
string when that block is absent" — the first occurrence of the opening
delimiter, then the shortest content up to the first closing delimiter after
it. Stated independently of the regex search so that `parse` can be proved to
refine it. -/
def specFirstBlock (op cl s : Str) : Option Str :=
  match findSub op s with
  | none => none
  | some i =>
    (findSub cl (s.drop (i + op.length))).map (fun j => (s.drop (i + op.length)).take j)

/-- Modelled from the spec (see `specFirstBlock`): the specified parse result. -/
def parseSpec (source : Str) : ParsedComponent :=
  { template :=
      match specFirstBlock TEMPLATE_OPEN TEMPLATE_CLOSE source with
      | some c => trimStr c
      | none => []
    style :=
      match specFirstBlock STYLE_OPEN STYLE_CLOSE source with
      | some c => trimStr c
      | none => []
    script :=
      match specFirstBlock SCRIPT_OPEN SCRIPT_CLOSE source with
      | some c => trimStr c
      | none => [] }

/-! ### compiler.ts : findClosingParen / parseIncludeArgs -/

/-- Loop body of `findClosingParen` in `src/compiler.ts`; the remaining
characters are paired with the running index `i`, `pd` is `parenDepth`
(invariant `1 ≤ pd` while scanning), `bd` is `braceDepth` (recorded but never
consulted, as in the source), `inStr` is `inString`. -/
def fcpAux : Str → Nat → Nat → Int → Option Char → Option Nat
  | [], _, _, _, _ => none
  | c :: rest, i, pd, bd, some q =>
    if c = '\\' ∧ rest ≠ [] then
      match rest with
      | [] => none
      | _ :: rest2 => fcpAux rest2 (i + 2) pd bd (some q)
    else if c = q then fcpAux rest (i + 1) pd bd none
    else fcpAux rest (i + 1) pd bd (some q)
  | c :: rest, i, pd, bd, none =>
    if c = '"' ∨ c = '\x27' then fcpAux rest (i + 1) pd bd (some c)
    else if c = '(' then fcpAux rest (i + 1) (pd + 1) bd none
    else if c = ')' then
      if pd = 1 then some i else fcpAux rest (i + 1) (pd - 1) bd none
    else if c = '{' then fcpAux rest (i + 1) pd (bd + 1) none
    else if c = '}' then fcpAux rest (i + 1) pd (bd - 1) none
    else fcpAux rest (i + 1) pd bd none

/-- `findClosingParen` of `src/compiler.ts`: scan from `start` with
`parenDepth = 1`, `braceDepth = 0`, not inside a string. -/
def findClosingParen (s : Str) (start : Nat) : Option Nat :=
  fcpAux (s.drop start) start 1 0 none

/-- `parseIncludeArgs` of `src/compiler.ts`: split at the first comma
(`content.indexOf(",")`), trimming both sides; no comma means no props. -/
def parseIncludeArgs (content : Str) : Str × Option Str :=
  match findSub [','] content with
  | none => (trimStr content, none)
  | some i => (trimStr (content.take i), some (trimStr (content.drop (i + 1))))

/-! ### The runtime value model

JavaScript values flowing through a render: `null`, `undefined`, strings,
(small natural) numbers, arrays and plain objects.  Objects and the data /
context scopes are association lists with first-match lookup; `insertKV` is
`Map.set` / `Object.assign` key semantics: overwrite in place, append when new.
-/

inductive JsValue where
  | vNull
  | vUndef
  | vNum (n : Nat)
  | vStr (s : Str)
  | vArr (elems : List JsValue)
  | vObj (fields : List (String × JsValue))

abbrev JsObj := List (String × JsValue)

/-- Key-overwriting insertion: the semantics of `Map.prototype.set` and of an
`Object.assign` overwrite — an existing key keeps its position with the new
value, a new key is appended. -/
def insertKV {κ α : Type} [DecidableEq κ] (k : κ) (v : α) :
    List (κ × α) → List (κ × α)
  | [] => [(k, v)]
  | (k2, v2) :: rest => if k2 = k then (k, v) :: rest else (k2, v2) :: insertKV k v rest

/-- JS truthiness (`value || ''`, `if (result)`, ...). -/
def truthy : JsValue → Bool
  | .vNull => false
  | .vUndef => false
  | .vNum n => n ≠ 0
  | .vStr s => s ≠ []
  | .vArr _ => true
  | .vObj _ => true

/-- JS `String(value)` coercion for the values templates stringify (raw
interpolation and concatenation).  Array/object stringification is not
exercised by any template in this development: arrays coerce through
`Array.prototype.join`, modelled only for scalar-free accuracy as the
join of nothing. -/
def jsToString : JsValue → Str
  | .vNull => "null".toList
  | .vUndef => "undefined".toList
  | .vNum n => (Nat.repr n).toList
  | .vStr s => s
  | .vArr _ => []
  | .vObj _ => "[object Object]".toList

/-- `escapeHtml` of `src/helpers.ts`: empty string for `null`/`undefined`,
otherwise escape the `String(value)` coercion. -/
def escapeHtml : JsValue → Str
  | .vNull => []
  | .vUndef => []
  | v => escapeHtmlStr (jsToString v)

/-! ### Errors

`TmlCompileError` / `TmlRenderError` of `src/compiler.ts` carry a message,
component path and line; `jsError` stands for any other JS exception
(ReferenceError, TypeError, plain `Error`).  `fuelOut` is a modelling artifact
of the fuel-indexed interpreter; it is proved unreachable from `renderPage`. -/
inductive Err where
  | compileError (msg : Str) (path : String) (line : Nat)
  | renderError (msg : Str) (path : String) (line : Nat)
  | jsError (msg : Str)
  | fuelOut
  deriving DecidableEq, Repr

/-- The `catch` block of `renderComponentInner` (`src/engine.ts`): structured
errors are rethrown unchanged, anything else is wrapped into a
`TmlRenderError(message, componentPath, 0)`. -/
def wrapErr (p : String) : Err → Err
  | .jsError m => .renderError m p 0
  | e => e

/-! ### Template syntax

The abstract syntax of a compiled template.  A constructor corresponds to the
code `compile` (`src/compiler.ts`) emits for the matching directive; `seq`/`nil`
chain the emitted statements.  `line` is a default template line after the
interpolation scanner: a sequence of text / escaped / raw segments followed by
a newline. -/

inductive Expr where
  | lit (v : JsValue)
  | varE (name : String)
  | ctxProp (key : String)

inductive Seg where
  | txt (s : Str)
  | esc (e : Expr)
  | raw (e : Expr)

inductive Tpl where
  | nil
  | seq (a b : Tpl)
  | line (segs : List Seg)
  | each (itemName : String) (iter : Expr) (body : Tpl)
  | includeD (path : String) (props : List (String × Expr))
  | componentD (path : String) (props : List (String × Expr)) (body : Tpl)
  | childrenD
  | provideD (key : String) (e : Expr)
  | headD (body : Tpl)

/-- A parsed-and-compiled component: its compiled template plus the raw style
and script block contents (`ParsedComponent` with the template compiled). -/
structure Component where
  template : Tpl
  style : Str
  script : Str

/-- Component resolution (`getParsed`/`getCompiled` backed by the views
directory scan): path to component. -/
abbrev Env := String → Option Component

/-- `RenderCollector` of `src/types.ts`: three path-keyed maps. -/
structure Collector where
  styles : List (String × Str)
  scripts : List (String × Str)
  headTags : List (String × Str)
  deriving DecidableEq, Repr

/-- The engine state threaded through one page render: the shared collector
and the engine's `renderDepth` counter. -/
structure RState where
  collector : Collector
  depth : Nat
  deriving DecidableEq, Repr

/-- The execution scope of one compiled routine invocation: `__data` (after
the `$context` merge of the wrapped body), the function-scoped `var` bindings
(everything an `@each` declares is hoisted, JS `var` semantics), the
`__context` variable, and the `__children` value computed at entry. -/
structure Frame where
  data : JsObj
  locals : JsObj
  ctx : JsObj
  childrenVal : JsValue

/-- Identifier lookup inside `with (__data) { ... }`: the `with` object is
consulted first, then the function scope. -/
def getVar (fr : Frame) (x : String) : Option JsValue :=
  match List.lookup x fr.data with
  | some v => some v
  | none => List.lookup x fr.locals

/-- Identifier assignment inside `with (__data) { ... }`: assigns to the
`with` object when it has the key, else to the function-scoped variable. -/
def setVar (x : String) (v : JsValue) (fr : Frame) : Frame :=
  if (List.lookup x fr.data).isSome then { fr with data := insertKV x v fr.data }
  else { fr with locals := insertKV x v fr.locals }

/-- Expression evaluation against the scope.  `varE` is a bare identifier
(`ReferenceError` when unbound), `ctxProp k` is the expression `$context.k`
(property access: `undefined` for a missing key, TypeError on
`null`/`undefined`). -/
def evalExpr (fr : Frame) : Expr → Except Err JsValue
  | .lit v => .ok v
  | .varE x =>
    match getVar fr x with
    | some v => .ok v
    | none => .error (.jsError (x.toList ++ " is not defined".toList))
  | .ctxProp k =>
    match getVar fr "$context" with
    | some (.vObj m) => .ok ((List.lookup k m).getD .vUndef)
    | some .vNull =>
      .error (.jsError ("Cannot read properties of null".toList))
    | some .vUndef =>
      .error (.jsError ("Cannot read properties of undefined".toList))
    | some _ => .ok .vUndef
    | none => .error (.jsError ("$context is not defined".toList))

/-- One interpolation segment of a compiled line: `'text'`,
`__escape(expr)`, `(expr)` (the last concatenated, hence `String`-coerced). -/
def evalSeg (fr : Frame) : Seg → Except Err Str
  | .txt s => .ok s
  | .esc e => (evalExpr fr e).map escapeHtml
  | .raw e => (evalExpr fr e).map jsToString

/-- A compiled line `__out += seg1 + seg2 + ... + '\n';`. -/
def evalSegs (fr : Frame) : List Seg → Except Err Str
  | [] => .ok []
  | s :: rest => do
    let o ← evalSeg fr s
    let o2 ← evalSegs fr rest
    .ok (o ++ o2)

/-- Evaluation of an object-literal props expression
(`{ k1: e1, k2: e2 }`), left to right. -/
def evalProps (fr : Frame) : List (String × Expr) → Except Err JsObj
  | [] => .ok []
  | (k, e) :: rest => do
    let v ← evalExpr fr e
    let vs ← evalProps fr rest
    .ok ((k, v) :: vs)

/-- `Object.assign({}, __data, props)`: a fresh copy of the data scope with
every props key overwriting. -/
def mergeProps (data : JsObj) (props : JsObj) : JsObj :=
  props.foldl (fun d kv => insertKV kv.1 kv.2 d) data

/-- `$index++` at a loop's `@end`: read the current value through the scope
chain and write back its successor. -/
def bumpIndex (fr : Frame) : Frame :=
  match getVar fr "$index" with
  | some (.vNum n) => setVar "$index" (.vNum (n + 1)) fr
  | _ => fr

/-- JS `var` hoisting for the compiled routine: every `@each` in the template
declares its item variable and `$index` with `var`, so they exist
(as `undefined`) in the function scope for the whole invocation.  `@component`
and `@head` bodies compile to nested `function(){...}` scopes, so their
declarations are not hoisted here. -/
def hoistInit : Tpl → JsObj
  | .nil => []
  | .seq a b => hoistInit a ++ hoistInit b
  | .line _ => []
  | .each itemName _ body =>
    (itemName, .vUndef) :: ("$index", .vUndef) :: hoistInit body
  | .includeD _ _ => []
  | .componentD _ _ _ => []
  | .childrenD => []
  | .provideD _ _ => []
  | .headD _ => []

/-- `__out += (__children || '');` — emit the children value when truthy. -/
def childrenOut (fr : Frame) : Str :=
  if truthy fr.childrenVal then jsToString fr.childrenVal else []

def MAX_RENDER_DEPTH : Nat := 100

/-- The depth-ceiling message of `renderComponent` (`src/engine.ts`). -/
def depthMsg : Str :=
  "Maximum render depth (100) exceeded - possible circular component reference".toList

/-- The `getParsed` not-found message (`src/engine.ts`), without the resolved
absolute path (not tracked by `Env`). -/
def notFoundMsg (p : String) : Str :=
  "Template not found: ".toList ++ p.toList

/-- The TypeError thrown by `for...of` over a non-iterable. -/
def notIterableMsg : Str := "is not iterable".toList

/-- The body of `for (var item of list) { ...; $index++; }`: per element,
assign the item variable, run the body, then increment `$index`. `step` is the
loop body's compiled code. -/
def eachRun (step : Frame → RState → Except Err Str × Frame × RState)
    (itemName : String) : List JsValue → Frame → RState → Except Err Str × Frame × RState
  | [], fr, st => (.ok [], fr, st)
  | x :: xs, fr, st =>
    let fr1 := setVar itemName x fr
    match step fr1 st with
    | (.error e, fr2, st2) => (.error e, fr2, st2)
    | (.ok o, fr2, st2) =>
      let fr3 := bumpIndex fr2
      match eachRun step itemName xs fr3 st2 with
      | (r, fr4, st4) => (r.map (o ++ ·), fr4, st4)

/-- Execution of a compiled template body.  `inc` is the engine's
include/component callback (`includeHandler`/`componentHandler` in
`src/engine.ts`, both of which re-enter `renderComponent`); the `Option Str`
argument is the captured children (`none` for `@include`).  Each branch
mirrors the code `compile` emits for that construct. -/
def execTpl (inc : String → JsObj → JsObj → Option Str → RState → Except Err Str × RState)
    (p : String) : Tpl → Frame → RState → Except Err Str × Frame × RState
  | .nil, fr, st => (.ok [], fr, st)
  | .seq a b, fr, st =>
    match execTpl inc p a fr st with
    | (.error e, fr1, st1) => (.error e, fr1, st1)
    | (.ok o1, fr1, st1) =>
      match execTpl inc p b fr1 st1 with
      | (r, fr2, st2) => (r.map (o1 ++ ·), fr2, st2)
  | .line segs, fr, st =>
    match evalSegs fr segs with
    | .error e => (.error e, fr, st)
    | .ok o => (.ok (o ++ ['\n']), fr, st)
  | .each itemName iter body, fr, st =>
    match evalExpr fr iter with
    | .error e => (.error e, fr, st)
    | .ok (.vArr xs) =>
      let fr0 := setVar "$index" (.vNum 0) fr
      eachRun (fun fr2 st2 => execTpl inc p body fr2 st2) itemName xs fr0 st
    | .ok _ => (.error (.jsError notIterableMsg), fr, st)
  | .includeD q props, fr, st =>
    match evalProps fr props with
    | .error e => (.error e, fr, st)
    | .ok extra =>
      match inc q (mergeProps fr.data extra) fr.ctx none st with
      | (.ok o, st1) => (.ok o, fr, st1)
      | (.error e, st1) => (.error e, fr, st1)
  | .componentD q props body, fr, st =>
    match evalProps fr props with
    | .error e => (.error e, fr, st)
    | .ok extra =>
      let d := mergeProps fr.data extra
      match execTpl inc p body fr st with
      | (.error e, frc, st1) => (.error e, { frc with locals := fr.locals }, st1)
      | (.ok ch, frc, st1) =>
        match inc q d fr.ctx (some ch) st1 with
        | (.ok o, st2) => (.ok o, { frc with locals := fr.locals }, st2)
        | (.error e, st2) => (.error e, { frc with locals := fr.locals }, st2)
  | .childrenD, fr, st => (.ok (childrenOut fr), fr, st)
  | .provideD k e, fr, st =>
    match evalExpr fr e with
    | .error er => (.error er, fr, st)
    | .ok v =>
      let ctx1 := insertKV k v fr.ctx
      (.ok [], { fr with ctx := ctx1, data := insertKV "$context" (.vObj ctx1) fr.data }, st)
  | .headD body, fr, st =>
    match execTpl inc p body fr st with
    | (.error e, frh, st1) => (.error e, { frh with locals := fr.locals }, st1)
    | (.ok h, frh, st1) =>
      if h ≠ [] then
        (.ok [], { frh with locals := fr.locals },
          { st1 with collector := { st1.collector with headTags := insertKV p h st1.collector.headTags } })
      else (.ok [], { frh with locals := fr.locals }, st1)

/-- The collector contribution of `renderComponentInner` (`src/engine.ts`
lines 490-496): record non-empty style and script keyed by the component
path. -/
def recordAssets (p : String) (comp : Component) (st : RState) : RState :=
  let st2 :=
    if comp.style ≠ [] then
      { st with collector := { st.collector with styles := insertKV p comp.style st.collector.styles } }
    else st
  if comp.script ≠ [] then
    { st2 with collector := { st2.collector with scripts := insertKV p comp.script st2.collector.scripts } }
  else st2

/-- The data scope built by `renderComponentInner`
(`dataWithChildren = children !== undefined ? { ...data, $children: children } : { ...data }`). -/
def dataWithChildren (data : JsObj) (children : Option Str) : JsObj :=
  match children with
  | some c => insertKV "$children" (JsValue.vStr c) data
  | none => data

/-- The execution frame of one compiled-routine invocation: `__data` after the
wrapped body's `$context` merge, hoisted `var` bindings, `__context`, and the
`__children` value computed at entry. -/
def innerFrame (comp : Component) (data ctx : JsObj) (children : Option Str) : Frame :=
  let data2 := insertKV "$context" (JsValue.vObj ctx) (dataWithChildren data children)
  { data := data2, locals := hoistInit comp.template, ctx := ctx
    childrenVal := (List.lookup "$children" data2).getD (JsValue.vStr []) }

/-- `renderComponentInner` of `src/engine.ts` (lines 481-554): component
resolution (`getCompiled`/`getParsed`, whose not-found failure is a plain
`Error` raised before the `try` block), collector contribution, children
merge, the `$context` merge performed by the compiled routine's wrapped body,
execution with the engine handlers, and the `try`/`catch` wrapping of
uncontrolled errors.  `inc` is the recursion back into `renderComponent`. -/
def renderComponentInner
    (inc : String → JsObj → JsObj → Option Str → RState → Except Err Str × RState)
    (env : Env) (p : String) (data ctx : JsObj) (children : Option Str)
    (st : RState) : Except Err Str × RState :=
  match env p with
  | none => (.error (.jsError (notFoundMsg p)), st)
  | some comp =>
    match execTpl inc p comp.template (innerFrame comp data ctx children)
        (recordAssets p comp st) with
    | (.ok o, _, st4) => (.ok o, st4)
    | (.error e, _, st4) => (.error (wrapErr p e), st4)

/-- `renderComponent` of `src/engine.ts` (lines 458-479): the depth guard
(compared before the increment), the increment, the call into
`renderComponentInner`, and the `finally` decrement taken on every exit path.
`fuel` bounds the recursion for totality; one unit is consumed per component
entry and `renderPage` supplies more units than the depth guard can ever
use. -/
def renderComponent : Nat → Env → String → JsObj → JsObj → Option Str → RState →
    Except Err Str × RState
  | 0, _, _, _, _, _, st => (.error .fuelOut, st)
  | fuel + 1, env, p, data, ctx, children, st =>
    if MAX_RENDER_DEPTH ≤ st.depth then
      (.error (.renderError depthMsg p 0), st)
    else
      let r :=
        renderComponentInner (fun q d c ch st4 => renderComponent fuel env q d c ch st4)
          env p data ctx children { st with depth := st.depth + 1 }
      (r.1, { r.2 with depth := r.2.depth - 1 })

/-- `renderPage` of `src/engine.ts`: fresh collector, depth 0. -/
def renderPage (env : Env) (p : String) (data ctx : JsObj) : Except Err Str × RState :=
  renderComponent (MAX_RENDER_DEPTH + 1) env p data ctx none ⟨⟨[], [], []⟩, 0⟩

/-! ### engine.ts : buildInlineAssets / injectAssets -/

/-- `AssetTags` of `src/types.ts`. -/
structure AssetTags where
  headTag : Str
  cssTag : Str
  jsTag : Str
  deriving DecidableEq, Repr

def headCloseTag : Str := "</head>".toList
def bodyCloseTag : Str := "</body>".toList

/-- The head-tag deduplication loop of `buildInlineAssets` (`src/engine.ts`
lines 700-711): trim each contributed value, keep the first occurrence of each
distinct non-empty trimmed value, preserving order. -/
def dedupHeadTags (seen : List Str) : List Str → List Str
  | [] => []
  | t :: rest =>
    let tr := trimStr t
    if tr ≠ [] ∧ tr ∉ seen then tr :: dedupHeadTags (tr :: seen) rest
    else dedupHeadTags seen rest

/-- `buildInlineAssets` of `src/engine.ts` (lines 687-730).  The CSS minifier
and the per-script JS bundler are the external esbuild-backed code transformer
(out of scope per the spec), passed in as opaque functions; the asset cache is
a performance layer and is not modelled. -/
def buildInlineAssets (cssMin jsBundle : Str → Str) (col : Collector) : AssetTags :=
  { headTag :=
      if col.headTags ≠ [] then
        List.intercalate ['\n'] (dedupHeadTags [] (col.headTags.map (·.2)))
      else []
    cssTag :=
      if col.styles ≠ [] then
        "<style>".toList ++ cssMin (List.intercalate ['\n'] (col.styles.map (·.2)))
          ++ "</style>".toList
      else []
    jsTag :=
      if col.scripts ≠ [] then
        "<script>".toList
          ++ List.intercalate ['\n'] (col.scripts.map (fun kv => jsBundle kv.2))
          ++ "</script>".toList
      else [] }

/-- `injectAssets` of `src/engine.ts` (lines 755-784): insert head tag then
CSS tag immediately before the first `</head>` (a `console.warn` diagnostic
and no change when absent), then the JS tag immediately before the first
`</body>` of the updated document (same diagnostic policy). -/
def injectAssets (html : Str) (assets : AssetTags) : Str :=
  let result :=
    match findSub headCloseTag html with
    | some i =>
      let headInsert :=
        (if assets.headTag ≠ [] then assets.headTag ++ ['\n'] else []) ++
          (if assets.cssTag ≠ [] then assets.cssTag ++ ['\n'] else [])
      if headInsert ≠ [] then html.take i ++ headInsert ++ html.drop i else html
    | none => html
  if assets.jsTag ≠ [] then
    match findSub bodyCloseTag result with
    | some j => result.take j ++ assets.jsTag ++ '\n' :: result.drop j
    | none => result
  else result

/-- The error message documented for `@head` without a `</head>` tag. -/
def headRequiredMsg : Str :=
  "@head directive requires a </head> tag in the document".toList

/-- Modelled from the spec: the repository's `render(baseDir, entryPath,
data)` entry point is not among the sources (only its tests and README
describe it); per the spec, content actively requiring head injection
(`@head` used without a `</head>` tag in the rendered HTML) is fatal with a
dedicated `TmlRenderError`, while otherwise the page renders and the built
assets are injected through `injectAssets`. -/
def renderDocument (env : Env) (p : String) (data ctx : JsObj)
    (cssMin jsBundle : Str → Str) : Except Err Str :=
  match renderPage env p data ctx with
  | (.error e, _) => .error e
  | (.ok html, st) =>
    if st.collector.headTags ≠ [] ∧ findSub headCloseTag html = none then
      .error (.renderError headRequiredMsg p 0)
    else .ok (injectAssets html (buildInlineAssets cssMin jsBundle st.collector))

/-! ### helpers.ts : safePath, engine.ts : getParsed

POSIX path model: a path string is split on `/`, normalized segment-wise
(`.` and empty segments dropped, `..` pops — Node `path.resolve` on absolute
inputs), and rendered back with a leading `/`. -/

/-- `String.prototype.split("/")`. -/
def splitSlash : Str → List Str
  | [] => [[]]
  | c :: rest =>
    if c = '/' then [] :: splitSlash rest
    else
      match splitSlash rest with
      | s :: ss => (c :: s) :: ss
      | [] => [[c]]

/-- One step of Node path normalization over an absolute path's segments. -/
def normStep (acc : List Str) (seg : Str) : List Str :=
  if seg = [] ∨ seg = ".".toList then acc
  else if seg = "..".toList then acc.dropLast
  else acc ++ [seg]

/-- Node `path.normalize` of an absolute path, as segments. -/
def normalizeSegs (segs : List Str) : List Str :=
  segs.foldl normStep []

/-- Node `path.resolve(base, rel)` for an absolute `base`: an absolute `rel`
wins, otherwise `rel` is resolved against `base`. -/
def resolvePath (base rel : Str) : List Str :=
  if rel.head? = some '/' then normalizeSegs (splitSlash rel)
  else normalizeSegs (splitSlash base ++ splitSlash rel)

/-- Segment-joining inverse of `splitSlash` for normalized segments. -/
def joinSegs : List Str → Str
  | [] => []
  | [s] => s
  | s :: rest => s ++ '/' :: joinSegs rest

/-- Render normalized absolute segments back to a path string. -/
def segsToPath (segs : List Str) : Str :=
  '/' :: joinSegs segs

/-- The `safePath` error message (`src/helpers.ts`), naming the offending
input. -/
def traversalMsg (name : Str) : Str :=
  "Path traversal detected: \"".toList ++ name
    ++ "\" resolves outside of views directory".toList

/-- `safePath` of `src/helpers.ts`: resolve `name + ".tml"` against the base
directory, re-resolve the base, and require the resolved string to start with
`base + "/"` or equal the base; otherwise throw the traversal error. -/
def safePath (baseDir name : Str) : Except Str Str :=
  if (segsToPath (normalizeSegs (splitSlash baseDir)) ++ ['/']).isPrefixOf
        (segsToPath (resolvePath baseDir (name ++ ".tml".toList)))
      ∨ segsToPath (resolvePath baseDir (name ++ ".tml".toList)) =
          segsToPath (normalizeSegs (splitSlash baseDir)) then
    .ok (segsToPath (resolvePath baseDir (name ++ ".tml".toList)))
  else .error (traversalMsg name)

/-- The full `getParsed` not-found message with the resolved path. -/
def notFoundMsgFull (p fullPath : Str) : Str :=
  "Template not found: ".toList ++ p ++ " (resolved to ".toList ++ fullPath ++ ")".toList

/-- `getParsed` of `src/engine.ts` (lines 648-666): parsed-cache hit, else
`safePath`, then the existence check and read against the filesystem (the
oracle `fs` maps a resolved path string to file contents), then `parse`.
The registry bookkeeping of `registerParsed` does not affect the result and
is omitted; the updated cache is returned alongside. -/
def getParsed (cache : List (Str × ParsedComponent)) (fs : Str → Option Str)
    (viewsDir : Str) (p : Str) :
    Except Str (ParsedComponent × List (Str × ParsedComponent)) :=
  match List.lookup p cache with
  | some c => .ok (c, cache)
  | none =>
    match safePath viewsDir p with
    | .error m => .error m
    | .ok fullPath =>
      match fs fullPath with
      | none => .error (notFoundMsgFull p fullPath)
      | some source => .ok (parse source, insertKV p (parse source) cache)

/-! ## Claim C10 -/

/-- C10: escaped interpolation of a `null` or `undefined` value renders as the
empty string — `escapeHtml` returns `""` whenever its argument is `null` or
`undefined` (and in particular not the literal text `"null"`/`"undefined"`). -/
theorem c10_escape_null_undefined :
    escapeHtml JsValue.vNull = [] ∧ escapeHtml JsValue.vUndef = [] :=
  ⟨rfl, rfl⟩

/-! ## Claim C5 -/

/-- C5: escaped interpolation substitutes each occurrence of the five
characters `& < > " '` with exactly `&amp; &lt; &gt; &quot; &#39;`, in a
single pass with no double-escaping (the substitution is a homomorphism for
concatenation and acts per source character, so replacement text is never
rescanned), and every other character is kept unchanged; raw interpolation of
a string value emits it with zero transformation. -/
theorem c5_escaped_and_raw_interpolation :
    (∀ s t : Str, escapeHtmlStr (s ++ t) = escapeHtmlStr s ++ escapeHtmlStr t)
    ∧ escapeHtmlStr ['&'] = "&amp;".toList
    ∧ escapeHtmlStr ['<'] = "&lt;".toList
    ∧ escapeHtmlStr ['>'] = "&gt;".toList
    ∧ escapeHtmlStr ['"'] = "&quot;".toList
    ∧ escapeHtmlStr ['\x27'] = "&#39;".toList
    ∧ (∀ c : Char, c ∉ (['&', '<', '>', '"', '\x27'] : List Char) →
        escapeHtmlStr [c] = [c])
    ∧ (∀ (fr : Frame) (e : Expr) (s : Str), evalExpr fr e = .ok (.vStr s) →
        evalSeg fr (Seg.raw e) = .ok s) := by
  refine ⟨?_, by decide, by decide, by decide, by decide, by decide, ?_, ?_⟩
  · intro s t
    induction s with
    | nil => simp [escapeHtmlStr]
    | cons c rest ih => simp [escapeHtmlStr, ih]
  · intro c hc
    have hne : ¬(c = '&' ∨ c = '<' ∨ c = '>' ∨ c = '"' ∨ c = '\x27') := by
      intro h
      rcases h with h | h | h | h | h <;> subst h <;> simp at hc
    simp [escapeHtmlStr, isEscapeChar, hne]
  · intro fr e s h
    simp [evalSeg, h, Except.map, jsToString]

/-- Witness for C5 at concrete inputs. -/
theorem c5_escaped_and_raw_interpolation_witness :
    escapeHtmlStr ['x'] = ['x'] ∧
      evalSeg ⟨[], [], [], .vUndef⟩ (Seg.raw (Expr.lit (.vStr "a&".toList))) =
        .ok "a&".toList :=
  ⟨c5_escaped_and_raw_interpolation.2.2.2.2.2.2.1 'x' (by decide),
    c5_escaped_and_raw_interpolation.2.2.2.2.2.2.2 _ _ _ rfl⟩

/-! ## Claim C8 -/

/-- C8 counterexample: the closing-parenthesis scan does not track
template-literal quoting, nor does the recorded brace depth guard the scan.
In `` (`)`) `` the parenthesis at index 2 sits inside a backtick template
literal, and in `({)})` the parenthesis at index 2 sits inside braces; in both
the true closer is at index 4, yet the scan stops at index 2 — commas or
parentheses inside these nested structures do terminate the scan
prematurely, contrary to the claim. -/
theorem c8_scan_counterexample :
    findClosingParen "(`)`)".toList 1 = some 2 ∧
      findClosingParen "({)})".toList 1 = some 2 :=
  ⟨by decide, by decide⟩

/-- Unfolding equation of `fcpAux` inside a string. -/
theorem fcpAux_cons_inStr (c : Char) (rest : Str) (i pd : Nat) (bd : Int) (q : Char) :
    fcpAux (c :: rest) i pd bd (some q) =
      if c = '\\' ∧ rest ≠ [] then
        (match rest with
         | [] => none
         | _ :: rest2 => fcpAux rest2 (i + 2) pd bd (some q))
      else if c = q then fcpAux rest (i + 1) pd bd none
      else fcpAux rest (i + 1) pd bd (some q) := by
  conv_lhs => rw [fcpAux.eq_def]
  rfl

/-- Unfolding equation of `fcpAux` outside a string. -/
theorem fcpAux_cons_out (c : Char) (rest : Str) (i pd : Nat) (bd : Int) :
    fcpAux (c :: rest) i pd bd none =
      if c = '"' ∨ c = '\x27' then fcpAux rest (i + 1) pd bd (some c)
      else if c = '(' then fcpAux rest (i + 1) (pd + 1) bd none
      else if c = ')' then
        (if pd = 1 then some i else fcpAux rest (i + 1) (pd - 1) bd none)
      else if c = '{' then fcpAux rest (i + 1) pd (bd + 1) none
      else if c = '}' then fcpAux rest (i + 1) pd (bd - 1) none
      else fcpAux rest (i + 1) pd bd none := by
  conv_lhs => rw [fcpAux.eq_def]

/-- Inside a single- or double-quoted string every escape-free character is
skipped by the scan. -/
theorem fcpAux_skip_string (c : Str) (h : ∀ ch ∈ c, ch ≠ '"' ∧ ch ≠ '\\')
    (rest : Str) (i : Nat) (pd : Nat) (bd : Int) :
    fcpAux (c ++ rest) i pd bd (some '"') = fcpAux rest (i + c.length) pd bd (some '"') := by
  induction c generalizing i with
  | nil => simp
  | cons ch c2 ih =>
    have hch := h ch (by simp)
    have hrest : ∀ ch2 ∈ c2, ch2 ≠ '"' ∧ ch2 ≠ '\\' := fun ch2 hm => h ch2 (by simp [hm])
    rw [List.cons_append, fcpAux_cons_inStr]
    rw [if_neg (by simp [hch.2]), if_neg hch.1, ih hrest]
    congr 1
    simp only [List.length_cons]
    omega

/-- Balanced runs of nested parentheses are tracked by the scan: depth rises
and falls back without ever terminating while the depth stays positive. -/
theorem fcpAux_parens (n : Nat) (rest : Str) (i : Nat) (pd : Nat) (bd : Int)
    (hpd : 1 ≤ pd) :
    fcpAux (List.replicate n '(' ++ (List.replicate n ')' ++ rest)) i pd bd none =
      fcpAux rest (i + 2 * n) pd bd none := by
  induction n generalizing i pd rest with
  | zero => simp
  | succ n ih =>
    have hsplit :
        List.replicate (n + 1) '(' ++ (List.replicate (n + 1) ')' ++ rest) =
          '(' :: (List.replicate n '(' ++ (List.replicate n ')' ++ (')' :: rest))) := by
      rw [List.replicate_succ, List.replicate_succ']
      simp
    rw [hsplit, fcpAux_cons_out]
    rw [if_neg (by decide), if_pos rfl]
    rw [ih (')' :: rest) (i + 1) (pd + 1) (by omega)]
    rw [fcpAux_cons_out]
    rw [if_neg (by decide), if_neg (by decide), if_pos rfl, if_neg (by omega)]
    have h2 : pd + 1 - 1 = pd := by omega
    rw [h2]
    congr 1
    omega

/-- C8 amended: the closing-parenthesis scan tracks nested parentheses and
single/double-quoted strings (with backslash escapes), so commas or
parentheses inside quoted strings or inside balanced nested parentheses never
terminate the scan prematurely; brace depth is recorded but does not guard the
scan, and backtick template literals are not treated as quoting, so an
unmatched parenthesis inside braces or inside a template-literal-style string
terminates the scan early (see the counterexample). -/
theorem c8_scan_amended :
    (∀ c : Str, (∀ ch ∈ c, ch ≠ '"' ∧ ch ≠ '\\') →
      findClosingParen ('(' :: '"' :: c ++ '"' :: [')']) 1 = some (c.length + 3))
    ∧ (∀ n : Nat,
      findClosingParen ('(' :: (List.replicate n '(' ++ List.replicate n ')') ++ [')']) 1 =
        some (2 * n + 1)) := by
  constructor
  · intro c h
    show fcpAux (('"' :: c) ++ '"' :: [')']) 1 1 0 none = _
    rw [List.cons_append, fcpAux_cons_out]
    rw [if_pos (Or.inl rfl)]
    rw [fcpAux_skip_string c h ('"' :: [')']) 2 1 0]
    rw [fcpAux_cons_inStr]
    rw [if_neg (by decide), if_pos rfl]
    rw [fcpAux_cons_out]
    rw [if_neg (by decide), if_neg (by decide), if_pos rfl, if_pos rfl]
    simp only [Option.some.injEq]
    omega
  · intro n
    show fcpAux ((List.replicate n '(' ++ List.replicate n ')') ++ [')']) 1 1 0 none = _
    rw [List.append_assoc, fcpAux_parens n [')'] 1 1 0 (by omega)]
    rw [fcpAux_cons_out]
    rw [if_neg (by decide), if_neg (by decide), if_pos rfl, if_pos rfl]
    simp only [Option.some.injEq]
    omega

/-- Witness for the amended C8 at concrete inputs. -/
theorem c8_scan_amended_witness :
    findClosingParen ('(' :: '"' :: ",(x".toList ++ '"' :: [')']) 1 = some 6 ∧
      findClosingParen
        ('(' :: (List.replicate 2 '(' ++ List.replicate 2 ')') ++ [')']) 1 = some 5 :=
  ⟨c8_scan_amended.1 ",(x".toList (by decide), c8_scan_amended.2 2⟩

/-! ## Claim C9 -/

/-- A pattern absent from a string is absent from every tail. -/
theorem findSub_tail_none {pat : Str} {c : Char} {t : Str}
    (h : findSub pat (c :: t) = none) : findSub pat t = none := by
  by_cases hp : pat.isPrefixOf (c :: t)
  · simp [findSub, hp] at h
  · simp only [findSub, if_neg hp, Option.map_eq_none'] at h
    exact h

/-- A pattern absent from a string is absent after any drop. -/
theorem findSub_drop_none {pat : Str} (k : Nat) {u : Str}
    (h : findSub pat u = none) : findSub pat (u.drop k) = none := by
  induction k generalizing u with
  | zero => simpa using h
  | succ k ih =>
    match u with
    | [] => simpa using h
    | c :: t =>
      rw [List.drop_succ_cons]
      exact ih (findSub_tail_none h)

/-- If no start position in `s` admits both the opening delimiter and a later
closing delimiter, the regex search fails. -/
theorem regexMatchFirst_none (op cl : Str) :
    ∀ s : Str,
      (∀ m, op.isPrefixOf (s.drop m) → findSub cl (s.drop (m + op.length)) = none) →
      regexMatchFirst op cl s = none := by
  intro s
  induction s with
  | nil =>
    intro h
    simp only [regexMatchFirst, tryMatchAt]
    by_cases hp : op.isPrefixOf ([] : Str)
    · rw [if_pos hp]
      have h2 := h 0 (by simpa using hp)
      simp only [Nat.zero_add, List.drop_nil] at h2
      simp [h2]
    · rw [if_neg hp]
  | cons c t ih =>
    intro h
    simp only [regexMatchFirst]
    have htail : regexMatchFirst op cl t = none := by
      apply ih
      intro m hm
      have := h (m + 1) (by simpa using hm)
      simpa [Nat.add_right_comm] using this
    by_cases hp : op.isPrefixOf (c :: t)
    · have h0 := h 0 (by simpa using hp)
      simp only [Nat.zero_add, List.drop_zero] at h0
      simp [tryMatchAt, hp, h0, htail]
    · simp [tryMatchAt, hp, htail]

/-- The regex leftmost lazy match coincides with "first opening delimiter,
then first closing delimiter after it": a later start position can only see a
suffix of the close-search region of an earlier one. -/
theorem regexMatchFirst_eq_spec (op cl : Str) :
    ∀ s : Str, regexMatchFirst op cl s = specFirstBlock op cl s := by
  intro s
  induction s with
  | nil =>
    simp only [regexMatchFirst, specFirstBlock, tryMatchAt, findSub]
    by_cases hp : op.isPrefixOf ([] : Str)
    · simp [hp, Nat.zero_add]
    · simp [hp]
  | cons c t ih =>
    by_cases hp : op.isPrefixOf (c :: t)
    · have hfs : findSub op (c :: t) = some 0 := by simp [findSub, hp]
      simp only [regexMatchFirst, specFirstBlock, hfs]
      cases hcl : findSub cl ((c :: t).drop op.length) with
      | some j => simp [tryMatchAt, hp, hcl, Nat.zero_add]
      | none =>
        have hnone : regexMatchFirst op cl t = none := by
          apply regexMatchFirst_none
          intro m _
          have heq : ((c :: t).drop op.length).drop (m + 1) = t.drop (m + op.length) := by
            rw [List.drop_drop]
            have h3 : op.length + (m + 1) = (m + op.length) + 1 := by omega
            rw [h3, List.drop_succ_cons]
          have h4 := findSub_drop_none (m + 1) hcl
          rw [heq] at h4
          exact h4
        simp [tryMatchAt, hp, hcl, hnone, Nat.zero_add]
    · have hfs : findSub op (c :: t) = (findSub op t).map (· + 1) := by
        simp [findSub, hp]
      have hrgx : regexMatchFirst op cl (c :: t) = regexMatchFirst op cl t := by
        simp [regexMatchFirst, tryMatchAt, hp]
      rw [hrgx, ih]
      simp only [specFirstBlock, hfs]
      cases hft : findSub op t with
      | none => simp
      | some i =>
        have hdrop : (c :: t).drop (i + 1 + op.length) = t.drop (i + op.length) := by
          have : i + 1 + op.length = (i + op.length) + 1 := by omega
          rw [this, List.drop_succ_cons]
        simp [hdrop]

/-- C9: for every source document, `parse` is a total function (no error
condition, no side effects) equal to the specified extraction: each of the
template/style/script fields is the trimmed contents of the first non-greedy
occurrence of its fixed literal block delimiters, and the empty string when
the block is absent. -/
theorem c9_parse_refines_spec : ∀ source : Str, parse source = parseSpec source := by
  intro source
  unfold parse parseSpec matchBlock
  rw [regexMatchFirst_eq_spec, regexMatchFirst_eq_spec, regexMatchFirst_eq_spec]


/-! ## Claim C3 -/

/-- Every piece produced by `splitSlash` is slash-free. -/
theorem splitSlash_no_slash : ∀ (s : Str) (seg : Str), seg ∈ splitSlash s → '/' ∉ seg := by
  intro s
  induction s with
  | nil =>
    intro seg hm
    simp only [splitSlash, List.mem_singleton] at hm
    simp [hm]
  | cons c rest ih =>
    intro seg hm
    by_cases hc : c = '/'
    · simp only [splitSlash, if_pos hc, List.mem_cons] at hm
      rcases hm with h | h
      · simp [h]
      · exact ih seg h
    · simp only [splitSlash, if_neg hc] at hm
      cases hsp : splitSlash rest with
      | nil =>
        rw [hsp] at hm
        simp only [List.mem_singleton] at hm
        subst hm
        simp only [List.mem_singleton]
        exact fun h => hc h.symm
      | cons s0 ss =>
        rw [hsp] at hm
        simp only [List.mem_cons] at hm
        rcases hm with h | h
        · subst h
          intro hmem
          simp only [List.mem_cons] at hmem
          rcases hmem with h | h
          · exact hc h.symm
          · have := ih s0 (by rw [hsp]; exact List.mem_cons_self s0 ss)
            exact this h
        · exact ih seg (by rw [hsp]; exact List.mem_cons_of_mem s0 h)

/-- Normalization of slash-free segments yields nonempty slash-free segments. -/
theorem normalize_valid (segs : List Str) (h : ∀ sg ∈ segs, '/' ∉ sg) :
    ∀ sg ∈ normalizeSegs segs, sg ≠ [] ∧ '/' ∉ sg := by
  suffices haux : ∀ (segs2 : List Str) (acc : List Str),
      (∀ sg ∈ acc, sg ≠ [] ∧ '/' ∉ sg) → (∀ sg ∈ segs2, '/' ∉ sg) →
      ∀ sg ∈ segs2.foldl normStep acc, sg ≠ [] ∧ '/' ∉ sg by
    exact haux segs [] (by simp) h
  intro segs2
  induction segs2 with
  | nil => intro acc hacc _ sg hm; exact hacc sg (by simpa using hm)
  | cons s rest ih =>
    intro acc hacc hfree
    rw [List.foldl_cons]
    apply ih
    · intro sg hm
      unfold normStep at hm
      by_cases h1 : s = [] ∨ s = ".".toList
      · rw [if_pos h1] at hm
        exact hacc sg hm
      · rw [if_neg h1] at hm
        by_cases h2 : s = "..".toList
        · rw [if_pos h2] at hm
          exact hacc sg ((List.dropLast_sublist acc).subset hm)
        · rw [if_neg h2] at hm
          rcases List.mem_append.mp hm with h | h
          · exact hacc sg h
          · simp only [List.mem_singleton] at h
            subst h
            refine ⟨?_, hfree sg (by simp)⟩
            intro he
            exact h1 (Or.inl he)
    · intro sg hm
      exact hfree sg (by simp [hm])

/-- Two slash-free segments followed by a separator: a string-level common
shape forces the segments to coincide. -/
theorem slashfree_pref : ∀ (b r u w : Str), '/' ∉ b → '/' ∉ r →
    (b ++ '/' :: u) <+: (r ++ '/' :: w) → b = r ∧ u <+: w := by
  intro b
  induction b with
  | nil =>
    intro r u w _ hr h
    cases r with
    | nil => simpa using h
    | cons d r2 =>
      simp only [List.nil_append, List.cons_append, List.cons_prefix_cons] at h
      exact absurd (h.1 ▸ List.mem_cons_self d r2) hr
  | cons c b2 ih =>
    intro r u w hb hr h
    cases r with
    | nil =>
      simp only [List.cons_append, List.nil_append, List.cons_prefix_cons] at h
      exact absurd
        (show ('/' : Char) ∈ c :: b2 by rw [h.1]; exact List.mem_cons_self _ _) hb
    | cons d r2 =>
      simp only [List.cons_append, List.cons_prefix_cons] at h
      obtain ⟨hcd, h2⟩ := h
      have hb2 : '/' ∉ b2 := fun hm => hb (List.mem_cons_of_mem c hm)
      have hr2 : '/' ∉ r2 := fun hm => hr (List.mem_cons_of_mem d hm)
      obtain ⟨hbr, huw⟩ := ih r2 u w hb2 hr2 h2
      exact ⟨by rw [hcd, hbr], huw⟩

/-- Equality version of `slashfree_pref`. -/
theorem slashfree_eq (b r u w : Str) (hb : '/' ∉ b) (hr : '/' ∉ r)
    (h : b ++ '/' :: u = r ++ '/' :: w) : b = r ∧ u = w := by
  obtain ⟨hbr, huw⟩ := slashfree_pref b r u w hb hr (h ▸ List.prefix_refl _)
  subst hbr
  have := List.append_cancel_left h
  simp only [List.cons.injEq] at this
  exact ⟨rfl, this.2⟩

/-- A joined nonempty segment list is nonempty. -/
theorem joinSegs_ne_nil (b : Str) (bs : List Str) (hb : b ≠ []) :
    joinSegs (b :: bs) ≠ [] := by
  cases bs with
  | nil => simpa [joinSegs] using hb
  | cons s bs2 =>
    simp only [joinSegs]
    intro h
    exact hb (List.append_eq_nil.mp h).1

/-- String-level base-plus-separator comparison of joined normalized segments
implies segment-level list inclusion. -/
theorem joinSegs_pref : ∀ (bs rs : List Str),
    (∀ sg ∈ bs, sg ≠ [] ∧ '/' ∉ sg) → (∀ sg ∈ rs, sg ≠ [] ∧ '/' ∉ sg) →
    (joinSegs bs ++ ['/'] <+: joinSegs rs ∨ joinSegs rs = joinSegs bs) →
    bs <+: rs := by
  intro bs
  induction bs with
  | nil => intro rs _ _ _; exact List.nil_prefix
  | cons b bs2 ih =>
    intro rs hbs hrs h
    have hbv := hbs b (by simp)
    cases rs with
    | nil =>
      exfalso
      rcases h with h | h
      · have h2 : joinSegs (b :: bs2) ++ ['/'] = [] :=
          List.prefix_nil.mp h
        have h3 := (List.append_eq_nil.mp h2).2
        simp at h3
      · exact joinSegs_ne_nil b bs2 hbv.1 (by simpa [joinSegs] using h.symm)
    | cons r rs2 =>
      have hrv := hrs r (by simp)
      cases bs2 with
      | nil =>
        cases rs2 with
        | nil =>
          rcases h with h | h
          · exfalso
            have hsub : ('/' : Char) ∈ joinSegs [r] := (List.IsPrefix.subset h) (by simp [joinSegs])
            exact hrv.2 (by simpa [joinSegs] using hsub)
          · have : r = b := by simpa [joinSegs] using h
            simp [this]
        | cons s rs3 =>
          rcases h with h | h
          · have h2 : (b ++ '/' :: []) <+: (r ++ '/' :: joinSegs (s :: rs3)) := by
              simpa [joinSegs] using h
            obtain ⟨hbr, _⟩ := slashfree_pref b r [] _ hbv.2 hrv.2 h2
            subst hbr
            exact (List.prefix_cons_inj b).mpr List.nil_prefix
          · exfalso
            have : ('/' : Char) ∈ joinSegs (r :: s :: rs3) := by simp [joinSegs]
            rw [h] at this
            exact hbv.2 (by simpa [joinSegs] using this)
      | cons s bs3 =>
        cases rs2 with
        | nil =>
          exfalso
          rcases h with h | h
          · have hsub : ('/' : Char) ∈ joinSegs [r] := by
              apply List.IsPrefix.subset h
              simp [joinSegs]
            exact hrv.2 (by simpa [joinSegs] using hsub)
          · have : ('/' : Char) ∈ joinSegs [r] := by
              rw [h]
              simp [joinSegs]
            exact hrv.2 (by simpa [joinSegs] using this)
        | cons t rs3 =>
          have hbs2 : ∀ sg ∈ s :: bs3, sg ≠ [] ∧ '/' ∉ sg := by
            intro sg hm
            exact hbs sg (List.mem_cons_of_mem b hm)
          have hrs2 : ∀ sg ∈ t :: rs3, sg ≠ [] ∧ '/' ∉ sg := by
            intro sg hm
            exact hrs sg (List.mem_cons_of_mem r hm)
          rcases h with h | h
          · have h2 : (b ++ '/' :: (joinSegs (s :: bs3) ++ ['/'])) <+:
                (r ++ '/' :: joinSegs (t :: rs3)) := by
              simpa [joinSegs, List.append_assoc] using h
            obtain ⟨hbr, hrec⟩ := slashfree_pref b r _ _ hbv.2 hrv.2 h2
            subst hbr
            have := ih (t :: rs3) hbs2 hrs2 (Or.inl hrec)
            exact (List.prefix_cons_inj b).mpr this
          · have h2 : r ++ '/' :: joinSegs (t :: rs3) = b ++ '/' :: joinSegs (s :: bs3) := by
              simpa [joinSegs] using h
            obtain ⟨hbr, hrec⟩ := slashfree_eq r b _ _ hrv.2 hbv.2 h2
            subst hbr
            have := ih (t :: rs3) hbs2 hrs2 (Or.inr hrec)
            exact (List.prefix_cons_inj r).mpr this

/-- The segments of the base directory as re-resolved by `safePath`. -/
def baseSegs (baseDir : Str) : List Str :=
  normalizeSegs (splitSlash baseDir)

/-- The segments of the resolved location of a component path argument. -/
def resolvedSegs (baseDir name : Str) : List Str :=
  resolvePath baseDir (name ++ ".tml".toList)

/-- `resolvePath` output is normalization of slash-free segments, hence valid. -/
theorem resolvedSegs_valid (baseDir name : Str) :
    ∀ sg ∈ resolvedSegs baseDir name, sg ≠ [] ∧ '/' ∉ sg := by
  unfold resolvedSegs resolvePath
  by_cases h : (name ++ ".tml".toList).head? = some '/'
  · rw [if_pos h]
    apply normalize_valid
    intro sg hm
    exact splitSlash_no_slash _ sg hm
  · rw [if_neg h]
    apply normalize_valid
    intro sg hm
    rcases List.mem_append.mp hm with h2 | h2 <;> exact splitSlash_no_slash _ sg h2

/-- The base directory segments are valid as well. -/
theorem baseSegs_valid (baseDir : Str) :
    ∀ sg ∈ baseSegs baseDir, sg ≠ [] ∧ '/' ∉ sg := by
  unfold baseSegs
  apply normalize_valid
  intro sg hm
  exact splitSlash_no_slash _ sg hm

/-- C3: a component path argument whose resolved location lies outside the
configured base (views) directory — its resolved segments do not extend the
base directory's segments — and which is not already cached fails resolution
with the "path traversal detected" error naming the offending input, and does
so identically for every filesystem oracle: the failure happens before any
file access is attempted. -/
theorem c3_path_traversal (viewsDir p : Str) (cache : List (Str × ParsedComponent))
    (hcache : List.lookup p cache = none)
    (houtside : ¬ (baseSegs viewsDir <+: resolvedSegs viewsDir p)) :
    ∀ fs : Str → Option Str,
      getParsed cache fs viewsDir p = .error (traversalMsg p) := by
  intro fs
  have hsafe : safePath viewsDir p = .error (traversalMsg p) := by
    unfold safePath
    rw [if_neg]
    intro hor
    apply houtside
    unfold baseSegs resolvedSegs
    rcases hor with h | h
    · have h2 := List.isPrefixOf_iff_prefix.mp h
      unfold segsToPath at h2
      simp only [List.cons_append, List.cons_prefix_cons, true_and] at h2
      exact joinSegs_pref _ _ (baseSegs_valid viewsDir) (resolvedSegs_valid viewsDir p)
        (Or.inl h2)
    · unfold segsToPath at h
      simp only [List.cons.injEq, true_and] at h
      exact joinSegs_pref _ _ (baseSegs_valid viewsDir) (resolvedSegs_valid viewsDir p)
        (Or.inr h)
  simp only [getParsed, hcache, hsafe]

/-- Witness for C3: `"../secret"` under base `"/views"` resolves to
`/secret.tml`, outside the base. -/
theorem c3_path_traversal_witness :
    getParsed [] (fun _ => some "<template>x</template>".toList)
        "/views".toList "../secret".toList
      = .error (traversalMsg "../secret".toList) :=
  c3_path_traversal "/views".toList "../secret".toList [] rfl (by decide) _



/-! ## Claim C2 -/

/-- `recordAssets` only touches the collector, never the depth. -/
theorem recordAssets_depth (p : String) (comp : Component) (st : RState) :
    (recordAssets p comp st).depth = st.depth := by
  unfold recordAssets
  split <;> split <;> rfl

/-- `eachRun` preserves the depth whenever its loop body does. -/
theorem eachRun_depth (step : Frame → RState → Except Err Str × Frame × RState)
    (itemName : String)
    (hstep : ∀ fr st, ((step fr st).2.2).depth = st.depth) :
    ∀ (xs : List JsValue) (fr : Frame) (st : RState),
      ((eachRun step itemName xs fr st).2.2).depth = st.depth := by
  intro xs
  induction xs with
  | nil => intro fr st; rfl
  | cons x xs ih =>
    intro fr st
    simp only [eachRun]
    rcases hs : step (setVar itemName x fr) st with ⟨r, fr2, st2⟩
    have hd2 : st2.depth = st.depth := by
      have := hstep (setVar itemName x fr) st
      rw [hs] at this
      exact this
    cases r with
    | error e => simpa using hd2
    | ok o =>
      simp only []
      rcases hrec : eachRun step itemName xs (bumpIndex fr2) st2 with ⟨r4, fr4, st4⟩
      have := ih (bumpIndex fr2) st2
      rw [hrec] at this
      simpa using this.trans hd2

/-- `execTpl` preserves the depth whenever the include callback does. -/
theorem execTpl_depth
    (inc : String → JsObj → JsObj → Option Str → RState → Except Err Str × RState)
    (hinc : ∀ q d c ch st, ((inc q d c ch st).2).depth = st.depth) (p : String) :
    ∀ (t : Tpl) (fr : Frame) (st : RState),
      ((execTpl inc p t fr st).2.2).depth = st.depth := by
  intro t
  induction t with
  | nil => intro fr st; rfl
  | seq a b iha ihb =>
    intro fr st
    simp only [execTpl]
    rcases ha : execTpl inc p a fr st with ⟨r1, fr1, st1⟩
    have hd1 : st1.depth = st.depth := by have := iha fr st; rw [ha] at this; exact this
    cases r1 with
    | error e => simpa using hd1
    | ok o1 =>
      simp only []
      rcases hb : execTpl inc p b fr1 st1 with ⟨r2, fr2, st2⟩
      have hd2 : st2.depth = st1.depth := by have := ihb fr1 st1; rw [hb] at this; exact this
      simpa using hd2.trans hd1
  | line segs =>
    intro fr st
    simp only [execTpl]
    cases evalSegs fr segs <;> rfl
  | each itemName iter body ih =>
    intro fr st
    simp only [execTpl]
    cases evalExpr fr iter with
    | error e => rfl
    | ok v =>
      cases v with
      | vArr xs =>
        exact eachRun_depth _ itemName (fun fr2 st2 => ih fr2 st2) xs _ st
      | vNull => rfl
      | vUndef => rfl
      | vNum n => rfl
      | vStr s => rfl
      | vObj fields => rfl
  | includeD q props =>
    intro fr st
    simp only [execTpl]
    cases evalProps fr props with
    | error e => rfl
    | ok extra =>
      simp only []
      rcases hi : inc q (mergeProps fr.data extra) fr.ctx none st with ⟨r1, st1⟩
      have hd1 : st1.depth = st.depth := by
        have := hinc q (mergeProps fr.data extra) fr.ctx none st
        rw [hi] at this
        exact this
      cases r1 <;> simpa using hd1
  | componentD q props body ih =>
    intro fr st
    simp only [execTpl]
    cases evalProps fr props with
    | error e => rfl
    | ok extra =>
      simp only []
      rcases hc : execTpl inc p body fr st with ⟨r1, frc, st1⟩
      have hd1 : st1.depth = st.depth := by have := ih fr st; rw [hc] at this; exact this
      cases r1 with
      | error e => simpa using hd1
      | ok ch =>
        simp only []
        rcases hi : inc q (mergeProps fr.data extra) fr.ctx (some ch) st1 with ⟨r2, st2⟩
        have hd2 : st2.depth = st1.depth := by
          have := hinc q (mergeProps fr.data extra) fr.ctx (some ch) st1
          rw [hi] at this
          exact this
        cases r2 <;> simpa using hd2.trans hd1
  | childrenD => intro fr st; rfl
  | provideD k e =>
    intro fr st
    simp only [execTpl]
    cases evalExpr fr e <;> rfl
  | headD body ih =>
    intro fr st
    simp only [execTpl]
    rcases hh : execTpl inc p body fr st with ⟨r1, frh, st1⟩
    have hd1 : st1.depth = st.depth := by have := ih fr st; rw [hh] at this; exact this
    cases r1 with
    | error e => simpa using hd1
    | ok h =>
      by_cases hne : h ≠ []
      · simp only [if_pos hne]
        simpa using hd1
      · simp only [if_neg hne]
        simpa using hd1

/-- `renderComponentInner` preserves depth whenever the callback does. -/
theorem renderComponentInner_depth
    (inc : String → JsObj → JsObj → Option Str → RState → Except Err Str × RState)
    (hinc : ∀ q d c ch st, ((inc q d c ch st).2).depth = st.depth)
    (env : Env) (p : String) (data ctx : JsObj) (children : Option Str) (st : RState) :
    ((renderComponentInner inc env p data ctx children st).2).depth = st.depth := by
  unfold renderComponentInner
  cases env p with
  | none => rfl
  | some comp =>
    simp only []
    rcases hex : execTpl inc p comp.template (innerFrame comp data ctx children)
        (recordAssets p comp st) with ⟨r, fr4, st4⟩
    have hdx := execTpl_depth inc hinc p comp.template (innerFrame comp data ctx children)
      (recordAssets p comp st)
    rw [hex] at hdx
    cases r <;> simpa using hdx.trans (recordAssets_depth p comp st)

/-- Depth restoration: `renderComponent` returns the depth counter to its
incoming value on every exit path — guard failure, resolution failure,
execution error or success. -/
theorem renderComponent_depth :
    ∀ (fuel : Nat) (env : Env) (p : String) (data ctx : JsObj) (ch : Option Str)
      (st : RState), ((renderComponent fuel env p data ctx ch st).2).depth = st.depth := by
  intro fuel
  induction fuel with
  | zero => intro env p data ctx ch st; rfl
  | succ fuel ih =>
    intro env p data ctx ch st
    simp only [renderComponent]
    by_cases hd : MAX_RENDER_DEPTH ≤ st.depth
    · rw [if_pos hd]
    · rw [if_neg hd]
      show (renderComponentInner (fun q d c ch2 st4 => renderComponent fuel env q d c ch2 st4)
          env p data ctx ch { st with depth := st.depth + 1 }).2.depth - 1 = st.depth
      have hinner := renderComponentInner_depth
        (fun q d c ch2 st4 => renderComponent fuel env q d c ch2 st4)
        (fun q d c ch2 st4 => ih env q d c ch2 st4)
        env p data ctx ch { st with depth := st.depth + 1 }
      rw [hinner]
      simp



/-- `Object.assign({}, d)` with no props adds nothing. -/
theorem mergeProps_nil (d : JsObj) : mergeProps d [] = d := rfl

/-- The execution frame's `__context` is the passed context. -/
theorem innerFrame_ctx (comp : Component) (data ctx : JsObj) (ch : Option Str) :
    (innerFrame comp data ctx ch).ctx = ctx := rfl

/-- A component with empty style and script contributes nothing. -/
theorem recordAssets_empty (p : String) (t : Tpl) (st : RState) :
    recordAssets p ⟨t, [], []⟩ st = st := rfl

/-- C2: over any family of components each of which unconditionally includes
another member of the family (covering a component that directly or
transitively includes itself), `renderComponent` fails with the
`TmlRenderError` reporting the depth ceiling (100) once recursion reaches the
ceiling — returning (not hanging, not overflowing silently) with the state,
including the depth counter, exactly as it was; and on every call whatsoever
the depth counter is incremented on entry and decremented on every exit path,
so the returned state's depth equals the incoming depth. -/
theorem c2_depth_guard :
    (∀ (env : Env) (ps : List String),
      (∀ p ∈ ps, ∃ q ∈ ps, env p = some ⟨Tpl.includeD q [], [], []⟩) →
      ∀ (fuel : Nat) (p : String) (data ctx : JsObj) (st : RState),
        p ∈ ps → st.depth ≤ MAX_RENDER_DEPTH →
        MAX_RENDER_DEPTH + 1 ≤ fuel + st.depth →
        ∃ q ∈ ps, renderComponent fuel env p data ctx none st =
          (.error (.renderError depthMsg q 0), st))
    ∧ (∀ (fuel : Nat) (env : Env) (p : String) (data ctx : JsObj) (ch : Option Str)
        (st : RState),
        ((renderComponent fuel env p data ctx ch st).2).depth = st.depth) := by
  constructor
  · intro env ps hcyc fuel
    induction fuel with
    | zero =>
      intro p data ctx st hp hd hf
      exfalso
      unfold MAX_RENDER_DEPTH at hd hf
      omega
    | succ fuel ih =>
      intro p data ctx st hp hd hf
      by_cases hguard : MAX_RENDER_DEPTH ≤ st.depth
      · exact ⟨p, hp, by simp only [renderComponent, if_pos hguard]⟩
      · obtain ⟨q, hq, henv⟩ := hcyc p hp
        obtain ⟨col, d⟩ := st
        have hd1 : ({ collector := col, depth := d + 1 } : RState).depth ≤ MAX_RENDER_DEPTH := by
          simp only [RState.depth] at hguard ⊢
          unfold MAX_RENDER_DEPTH at hguard ⊢
          omega
        have hf1 : MAX_RENDER_DEPTH + 1 ≤
            fuel + ({ collector := col, depth := d + 1 } : RState).depth := by
          simp only [RState.depth] at hf ⊢
          omega
        obtain ⟨q2, hq2, hrec⟩ :=
          ih q (innerFrame ⟨Tpl.includeD q [], [], []⟩ data ctx none).data ctx
            ⟨col, d + 1⟩ hq hd1 hf1
        refine ⟨q2, hq2, ?_⟩
        simp only [renderComponent, if_neg hguard]
        simp only [renderComponentInner, henv, execTpl, evalProps, mergeProps_nil,
          innerFrame_ctx, recordAssets_empty]
        rw [hrec]
        simp only [wrapErr]
        simp
  · exact renderComponent_depth



/-- A component including itself directly. -/
def c2cycEnv : Env := fun q =>
  if q = "a" then some ⟨Tpl.includeD "a" [], [], []⟩ else none

/-- Witness for C2 at the concrete self-including component `"a"`. -/
theorem c2_depth_guard_witness :
    (∃ q ∈ ["a"], renderComponent 101 c2cycEnv "a" [] [] none ⟨⟨[], [], []⟩, 0⟩ =
      (.error (.renderError depthMsg q 0), ⟨⟨[], [], []⟩, 0⟩))
    ∧ ((renderComponent 101 c2cycEnv "a" [] [] none ⟨⟨[], [], []⟩, 0⟩).2).depth = 0 :=
  ⟨c2_depth_guard.1 c2cycEnv ["a"]
      (by
        intro p hp
        simp only [List.mem_singleton] at hp
        subst hp
        exact ⟨"a", by simp, rfl⟩)
      101 "a" [] [] ⟨⟨[], [], []⟩, 0⟩ (by simp) (by decide) (by decide),
    c2_depth_guard.2 101 c2cycEnv "a" [] [] none ⟨⟨[], [], []⟩, 0⟩⟩



/-! ## Controlled unfolding equations for the interpreter -/

/-- Unfolding equation: statement sequencing. -/
theorem execTpl_seq
    (inc : String → JsObj → JsObj → Option Str → RState → Except Err Str × RState)
    (p : String) (a b : Tpl) (fr : Frame) (st : RState) :
    execTpl inc p (Tpl.seq a b) fr st =
      match execTpl inc p a fr st with
      | (.error e, fr1, st1) => (.error e, fr1, st1)
      | (.ok o1, fr1, st1) =>
        match execTpl inc p b fr1 st1 with
        | (r, fr2, st2) => (r.map (o1 ++ ·), fr2, st2) := by
  conv_lhs => rw [execTpl.eq_def]

/-- Unfolding equation: `@include`. -/
theorem execTpl_includeD
    (inc : String → JsObj → JsObj → Option Str → RState → Except Err Str × RState)
    (p : String) (q : String) (props : List (String × Expr)) (fr : Frame) (st : RState) :
    execTpl inc p (Tpl.includeD q props) fr st =
      match evalProps fr props with
      | .error e => (.error e, fr, st)
      | .ok extra =>
        match inc q (mergeProps fr.data extra) fr.ctx none st with
        | (.ok o, st1) => (.ok o, fr, st1)
        | (.error e, st1) => (.error e, fr, st1) := by
  conv_lhs => rw [execTpl.eq_def]

/-- `evalProps` with no props. -/
theorem evalProps_nil (fr : Frame) : evalProps fr [] = .ok [] := rfl

/-- Unfolding equation of `renderComponent` at positive fuel (safe for
rewriting with literal fuel, unlike blind unfolding). -/
theorem renderComponent_succ (fuel : Nat) (env : Env) (p : String)
    (data ctx : JsObj) (ch : Option Str) (st : RState) :
    renderComponent (fuel + 1) env p data ctx ch st =
      if MAX_RENDER_DEPTH ≤ st.depth then
        (.error (.renderError depthMsg p 0), st)
      else
        let r :=
          renderComponentInner (fun q d c ch2 st4 => renderComponent fuel env q d c ch2 st4)
            env p data ctx ch { st with depth := st.depth + 1 }
        (r.1, { r.2 with depth := r.2.depth - 1 }) := by
  conv_lhs => rw [renderComponent.eq_def]

/-! ## Claim C6 -/

/-- Overwrite-by-key insertion is idempotent. -/
theorem insertKV_idem {κ α : Type} [DecidableEq κ] (k : κ) (v : α) :
    ∀ l : List (κ × α), insertKV k v (insertKV k v l) = insertKV k v l := by
  intro l
  induction l with
  | nil => simp [insertKV]
  | cons kv rest ih =>
    obtain ⟨k2, v2⟩ := kv
    by_cases h : k2 = k
    · simp [insertKV, h]
    · simp [insertKV, h, ih]

/-- A component with a style and a script, included repeatedly. -/
def c6card : Component :=
  ⟨Tpl.line [Seg.txt ['c']], "CS".toList, "JS".toList⟩

/-- A page template consisting of `m` consecutive `@include(card)` lines. -/
def c6pages : Nat → Tpl
  | 0 => Tpl.nil
  | m + 1 => Tpl.seq (Tpl.includeD "card" []) (c6pages m)

/-- The environment: a page of `n + 1` card includes plus the card. -/
def c6env (n : Nat) : Env := fun q =>
  if q = "page" then some ⟨c6pages (n + 1), [], []⟩
  else if q = "card" then some c6card else none

/-- Output of `m` card renders. -/
def c6out : Nat → Str
  | 0 => []
  | m + 1 => 'c' :: '\n' :: c6out m

/-- Rendering the card from any state records its style and script keyed by
its path (overwriting) and emits its line. -/
theorem c6card_render (n f : Nat) (d c : JsObj) (col : Collector) (dep : Nat)
    (hdep : dep + 1 ≤ MAX_RENDER_DEPTH) :
    renderComponent (f + 1) (c6env n) "card" d c none ⟨col, dep⟩ =
      (.ok ('c' :: ['\n']),
        ⟨⟨insertKV "card" "CS".toList col.styles,
          insertKV "card" "JS".toList col.scripts, col.headTags⟩, dep⟩) := by
  have hg : ¬ MAX_RENDER_DEPTH ≤ (⟨col, dep⟩ : RState).depth := by
    simp only [RState.depth]
    omega
  simp only [renderComponent, if_neg hg]
  simp [renderComponentInner, c6env, c6card, recordAssets, execTpl, evalSegs,
    evalSeg, innerFrame, hoistInit, wrapErr, Except.bind, bind, Except.map]

/-- Executing `m + 1` consecutive card includes contributes the card's assets
to the collector exactly once (overwrite-by-path), whatever `m` is. -/
theorem c6pages_exec (n : Nat) (m : Nat) (fr : Frame) (col : Collector) (dep : Nat)
    (hdep : dep + 1 ≤ MAX_RENDER_DEPTH) :
    execTpl (fun q d c ch st4 => renderComponent 100 (c6env n) q d c ch st4)
        "page" (c6pages (m + 1)) fr ⟨col, dep⟩ =
      (.ok (c6out (m + 1)), fr,
        ⟨⟨insertKV "card" "CS".toList col.styles,
          insertKV "card" "JS".toList col.scripts, col.headTags⟩, dep⟩) := by
  have hc : ∀ col2 : Collector,
      renderComponent 100 (c6env n) "card" fr.data fr.ctx none ⟨col2, dep⟩ =
        (.ok ('c' :: ['\n']),
          ⟨⟨insertKV "card" "CS".toList col2.styles,
            insertKV "card" "JS".toList col2.scripts, col2.headTags⟩, dep⟩) := by
    intro col2
    have h := c6card_render n 99 fr.data fr.ctx col2 dep hdep
    norm_num at h
    exact h
  induction m generalizing col with
  | zero =>
    rw [show c6pages 1 = Tpl.seq (Tpl.includeD "card" []) Tpl.nil from rfl,
      execTpl_seq, execTpl_includeD, evalProps_nil]
    simp only [mergeProps_nil]
    rw [hc col]
    simp [execTpl, c6out, Except.map]
  | succ m ih =>
    rw [show c6pages (m + 1 + 1) = Tpl.seq (Tpl.includeD "card" []) (c6pages (m + 1)) from rfl,
      execTpl_seq, execTpl_includeD, evalProps_nil]
    simp only [mergeProps_nil]
    rw [hc col]
    simp only []
    rw [ih ⟨insertKV "card" "CS".toList col.styles,
      insertKV "card" "JS".toList col.scripts, col.headTags⟩]
    simp [c6out, insertKV_idem, Except.map]

/-- C6: re-rendering the same component path any number of times within one
page render contributes that component's style and script text to the render
collector exactly once, keyed by its path — the collector holds a single
entry for the card no matter how many includes ran. -/
theorem c6_collector_once : ∀ (n : Nat) (data ctx : JsObj),
    renderPage (c6env n) "page" data ctx =
      (.ok (c6out (n + 1)),
        ⟨⟨[("card", "CS".toList)], [("card", "JS".toList)], []⟩, 0⟩) := by
  intro n data ctx
  unfold renderPage
  have hg : ¬ MAX_RENDER_DEPTH ≤ ((⟨⟨[], [], []⟩, 0⟩ : RState)).depth := by decide
  rw [show MAX_RENDER_DEPTH + 1 = 100 + 1 from rfl, renderComponent_succ]
  rw [if_neg hg]
  have henv : c6env n "page" = some ⟨c6pages (n + 1), [], []⟩ := by simp [c6env]
  simp only [renderComponentInner, henv, recordAssets_empty]
  rw [c6pages_exec n n _ ⟨[], [], []⟩ 1 (by simp [MAX_RENDER_DEPTH])]
  simp [insertKV]


/-! ## Claim C7 -/

/-- Unfolding equation: a default line. -/
theorem execTpl_line
    (inc : String → JsObj → JsObj → Option Str → RState → Except Err Str × RState)
    (p : String) (segs : List Seg) (fr : Frame) (st : RState) :
    execTpl inc p (Tpl.line segs) fr st =
      match evalSegs fr segs with
      | .error e => (.error e, fr, st)
      | .ok o => (.ok (o ++ ['\n']), fr, st) := by
  conv_lhs => rw [execTpl.eq_def]

/-- Unfolding equation: `@provide`. -/
theorem execTpl_provideD
    (inc : String → JsObj → JsObj → Option Str → RState → Except Err Str × RState)
    (p : String) (k : String) (e : Expr) (fr : Frame) (st : RState) :
    execTpl inc p (Tpl.provideD k e) fr st =
      match evalExpr fr e with
      | .error er => (.error er, fr, st)
      | .ok v =>
        (.ok [],
          { fr with
              ctx := insertKV k v fr.ctx
              data := insertKV "$context" (.vObj (insertKV k v fr.ctx)) fr.data },
          st) := by
  conv_lhs => rw [execTpl.eq_def]

/-- `Map` lookup after an overwrite at the same key. -/
theorem lookup_insertKV_self {α : Type} (k : String) (v : α) :
    ∀ l : List (String × α), List.lookup k (insertKV k v l) = some v := by
  intro l
  induction l with
  | nil => simp [insertKV, List.lookup]
  | cons kv rest ih =>
    obtain ⟨k2, v2⟩ := kv
    by_cases h : k2 = k
    · simp [insertKV, h, List.lookup]
    · have hbeq : (k == k2) = false := beq_eq_false_iff_ne.mpr (Ne.symm h)
      simp [insertKV, if_neg h, List.lookup, hbeq, ih]

/-- `Map` lookup is unaffected by an overwrite at a different key. -/
theorem lookup_insertKV_ne {α : Type} (k2 k : String) (v : α) (hne : k2 ≠ k) :
    ∀ l : List (String × α), List.lookup k2 (insertKV k v l) = List.lookup k2 l := by
  intro l
  induction l with
  | nil =>
    have hbeq : (k2 == k) = false := beq_eq_false_iff_ne.mpr hne
    simp [insertKV, List.lookup, hbeq]
  | cons kv rest ih =>
    obtain ⟨k3, v3⟩ := kv
    by_cases h : k3 = k
    · subst h
      have hbeq : (k2 == k3) = false := beq_eq_false_iff_ne.mpr hne
      simp [insertKV, List.lookup, hbeq]
    · by_cases h2 : k2 = k3
      · simp [insertKV, if_neg h, List.lookup, h2]
      · have hbeq : (k2 == k3) = false := beq_eq_false_iff_ne.mpr h2
        simp [insertKV, if_neg h, List.lookup, hbeq, ih]

/-- `escapeHtml` on a string value is the character substitution. -/
theorem escapeHtml_vStr (s : Str) : escapeHtml (.vStr s) = escapeHtmlStr s := rfl

/-- `escapeHtml` on `undefined` is empty. -/
theorem escapeHtml_vUndef : escapeHtml .vUndef = [] := rfl

/-- A component that displays `$context.k` (escaped). -/
def c7leaf : Component := ⟨Tpl.line [Seg.esc (Expr.ctxProp "k")], [], []⟩

/-- A component whose whole body is `@provide(k, v)`. -/
def c7prov (v : Str) : Component := ⟨Tpl.provideD "k" (Expr.lit (.vStr v)), [], []⟩

/-- A component that includes the leaf before a provide, provides, includes
the leaf after, then displays `$context.k` itself. -/
def c7mid (v : Str) : Component :=
  ⟨Tpl.seq (Tpl.includeD "leaf" [])
    (Tpl.seq (Tpl.provideD "k" (Expr.lit (.vStr v)))
      (Tpl.seq (Tpl.includeD "leaf" []) (Tpl.line [Seg.esc (Expr.ctxProp "k")]))), [], []⟩

/-- A component that includes a providing child, then a sibling leaf, then
displays `$context.k` itself. -/
def c7parent : Component :=
  ⟨Tpl.seq (Tpl.includeD "prov" [])
    (Tpl.seq (Tpl.includeD "leaf" []) (Tpl.line [Seg.esc (Expr.ctxProp "k")])), [], []⟩

def c7env (v : Str) : Env := fun q =>
  if q = "leaf" then some c7leaf
  else if q = "prov" then some (c7prov v)
  else if q = "mid" then some (c7mid v)
  else if q = "parent" then some c7parent else none

/-- Rendering the leaf displays the context entry `k` it was handed (escaped;
empty for a missing key) and leaves the render state untouched. -/
theorem c7leaf_render (v : Str) (f : Nat) (d ctx : JsObj) (col : Collector) (dep : Nat)
    (hdep : dep + 1 ≤ MAX_RENDER_DEPTH) :
    renderComponent (f + 1) (c7env v) "leaf" d ctx none ⟨col, dep⟩ =
      (.ok (escapeHtml ((List.lookup "k" ctx).getD .vUndef) ++ ['\n']), ⟨col, dep⟩) := by
  have hg : ¬ MAX_RENDER_DEPTH ≤ (⟨col, dep⟩ : RState).depth := by
    simp only [RState.depth]
    omega
  rw [renderComponent_succ, if_neg hg]
  have henv : c7env v "leaf" = some c7leaf := by simp [c7env]
  simp only [renderComponentInner, henv]
  rw [show recordAssets "leaf" c7leaf ⟨col, dep + 1⟩ = ⟨col, dep + 1⟩ from rfl]
  rw [show (c7leaf).template = Tpl.line [Seg.esc (Expr.ctxProp "k")] from rfl]
  rw [execTpl_line]
  simp only [evalSegs, evalSeg, evalExpr, getVar, innerFrame, dataWithChildren,
    lookup_insertKV_self, Except.bind, bind, Except.map]
  simp

/-- Rendering the providing child emits nothing and leaves the caller's
state untouched: its context extension is invisible to the caller. -/
theorem c7prov_render (v : Str) (f : Nat) (d ctx : JsObj) (col : Collector) (dep : Nat)
    (hdep : dep + 1 ≤ MAX_RENDER_DEPTH) :
    renderComponent (f + 1) (c7env v) "prov" d ctx none ⟨col, dep⟩ =
      (.ok [], ⟨col, dep⟩) := by
  have hg : ¬ MAX_RENDER_DEPTH ≤ (⟨col, dep⟩ : RState).depth := by
    simp only [RState.depth]
    omega
  rw [renderComponent_succ, if_neg hg]
  have henv : c7env v "prov" = some (c7prov v) := by simp [c7env]
  simp only [renderComponentInner, henv]
  rw [show recordAssets "prov" (c7prov v) ⟨col, dep + 1⟩ = ⟨col, dep + 1⟩ from rfl]
  rw [show (c7prov v).template = Tpl.provideD "k" (Expr.lit (.vStr v)) from rfl]
  rw [execTpl_provideD]
  simp [evalExpr]

/-- C7: `@provide(key, expr)` extends the context functionally (a fresh
mapping equal to the old plus the binding; the old context object held by
other scopes is untouched), and the extension is visible exactly to lines and
descendant components evaluated after the provide in the providing scope: the
leaf included before the provide shows nothing, the leaf included after and
the later line show the provided value, while a sibling rendered after a
providing child and the parent's own later line show nothing. -/
theorem c7_provide_scoping : ∀ v : Str,
    (renderPage (c7env v) "mid" [] []).1 =
      .ok ('\n' :: (escapeHtmlStr v ++ '\n' :: (escapeHtmlStr v ++ ['\n'])))
    ∧ (renderPage (c7env v) "parent" [] []).1 = .ok ['\n', '\n'] := by
  intro v
  have h100 : (100 : Nat) = 99 + 1 := rfl
  constructor
  · unfold renderPage
    rw [show MAX_RENDER_DEPTH + 1 = 100 + 1 from rfl, renderComponent_succ,
      if_neg (by decide)]
    have henv : c7env v "mid" = some (c7mid v) := by simp [c7env]
    simp only [renderComponentInner, henv]
    rw [show recordAssets "mid" (c7mid v) ⟨⟨[], [], []⟩, 1⟩ = ⟨⟨[], [], []⟩, 1⟩ from rfl]
    rw [show (c7mid v).template =
      Tpl.seq (Tpl.includeD "leaf" [])
        (Tpl.seq (Tpl.provideD "k" (Expr.lit (.vStr v)))
          (Tpl.seq (Tpl.includeD "leaf" []) (Tpl.line [Seg.esc (Expr.ctxProp "k")])))
      from rfl]
    rw [execTpl_seq, execTpl_includeD, evalProps_nil]
    simp only [mergeProps_nil, innerFrame_ctx]
    rw [h100]
    rw [c7leaf_render v 99 _ [] ⟨[], [], []⟩ 1 (by decide)]
    simp only [List.lookup, Option.getD, escapeHtml_vUndef]
    rw [execTpl_seq, execTpl_provideD]
    simp only [evalExpr, innerFrame_ctx]
    rw [execTpl_seq, execTpl_includeD, evalProps_nil]
    simp only [mergeProps_nil]
    rw [c7leaf_render v 99 _ (insertKV "k" (JsValue.vStr v) []) ⟨[], [], []⟩ 1 (by decide)]
    simp only [lookup_insertKV_self, Option.getD, escapeHtml_vStr]
    simp only [execTpl_line, evalSegs, evalSeg, evalExpr, getVar, Except.bind, bind,
      Except.map, lookup_insertKV_self]
    simp [wrapErr, insertKV, List.lookup, escapeHtml_vStr, escapeHtml_vUndef]
  · unfold renderPage
    rw [show MAX_RENDER_DEPTH + 1 = 100 + 1 from rfl, renderComponent_succ,
      if_neg (by decide)]
    have henv : c7env v "parent" = some c7parent := by simp [c7env]
    simp only [renderComponentInner, henv]
    rw [show recordAssets "parent" c7parent ⟨⟨[], [], []⟩, 1⟩ = ⟨⟨[], [], []⟩, 1⟩ from rfl]
    rw [show c7parent.template =
      Tpl.seq (Tpl.includeD "prov" [])
        (Tpl.seq (Tpl.includeD "leaf" []) (Tpl.line [Seg.esc (Expr.ctxProp "k")]))
      from rfl]
    rw [execTpl_seq, execTpl_includeD, evalProps_nil]
    simp only [mergeProps_nil, innerFrame_ctx]
    rw [h100, c7prov_render v 99 _ [] ⟨[], [], []⟩ 1 (by decide)]
    simp only []
    rw [execTpl_seq, execTpl_includeD, evalProps_nil]
    simp only [mergeProps_nil, innerFrame_ctx]
    rw [c7leaf_render v 99 _ [] ⟨[], [], []⟩ 1 (by decide)]
    simp only [List.lookup, Option.getD, escapeHtml_vUndef]
    simp only [execTpl_line, evalSegs, evalSeg, evalExpr, getVar, Except.bind, bind,
      Except.map, lookup_insertKV_self]
    simp [wrapErr, innerFrame, dataWithChildren, insertKV, List.lookup,
      escapeHtml_vStr, escapeHtml_vUndef]


/-! ## Claim C4 -/

/-- Unfolding equation: the per-element loop step. -/
theorem eachRun_cons (step : Frame → RState → Except Err Str × Frame × RState)
    (itemName : String) (x : JsValue) (xs : List JsValue) (fr : Frame) (st : RState) :
    eachRun step itemName (x :: xs) fr st =
      (match step (setVar itemName x fr) st with
      | (.error e, fr2, st2) => (.error e, fr2, st2)
      | (.ok o, fr2, st2) =>
        match eachRun step itemName xs (bumpIndex fr2) st2 with
        | (r, fr4, st4) => (r.map (o ++ ·), fr4, st4)) := by
  conv_lhs => rw [eachRun.eq_def]

/-- Unfolding equation: `@each`. -/
theorem execTpl_each
    (inc : String → JsObj → JsObj → Option Str → RState → Except Err Str × RState)
    (p : String) (itemName : String) (iter : Expr) (body : Tpl) (fr : Frame) (st : RState) :
    execTpl inc p (Tpl.each itemName iter body) fr st =
      match evalExpr fr iter with
      | .error e => (.error e, fr, st)
      | .ok (.vArr xs) =>
        eachRun (fun fr2 st2 => execTpl inc p body fr2 st2) itemName xs
          (setVar "$index" (.vNum 0) fr) st
      | .ok _ => (.error (.jsError notIterableMsg), fr, st) := by
  conv_lhs => rw [execTpl.eq_def]

/-- `String(n)` for a number. -/
theorem jsToString_vNum (n : Nat) : jsToString (.vNum n) = (Nat.repr n).toList := rfl

/-- Decimal rendering of a natural. -/
def natStr (n : Nat) : Str := (Nat.repr n).toList

/-- The loop body: `{{{ $index }}}: {{{ item }}}`. -/
def c4body : Tpl :=
  Tpl.line [Seg.raw (Expr.varE "$index"), Seg.txt (':' :: [' ']), Seg.raw (Expr.varE "item")]

/-- The loop: `@each(item of items)` around `c4body`. -/
def c4each : Tpl := Tpl.each "item" (Expr.varE "items") c4body

/-- Two lines after the loops: `{{{ $index }}}` then `{{{ item }}}`. -/
def c4tail : Tpl :=
  Tpl.seq (Tpl.line [Seg.raw (Expr.varE "$index")]) (Tpl.line [Seg.raw (Expr.varE "item")])

/-- The page: the loop twice (showing the reset at entry), then the two
after-loop lines (showing what remains visible after `@end`). -/
def c4tpl : Tpl := Tpl.seq c4each (Tpl.seq c4each c4tail)

def c4page : Component := ⟨c4tpl, [], []⟩

def c4env : Env := fun q => if q = "p" then some c4page else none

def c4data (xs : List Str) : JsObj := [("items", JsValue.vArr (xs.map .vStr))]

/-- The function-scope `var` store as the loop leaves it. -/
def c4locals : List Str → Nat → JsObj → JsObj
  | [], _, l => l
  | x :: xs, i, l =>
    c4locals xs (i + 1) (insertKV "$index" (.vNum (i + 1)) (insertKV "item" (.vStr x) l))

/-- The last element of a list, if any. -/
def lastItem : List Str → Option Str
  | [] => none
  | [x] => some x
  | _ :: x :: xs => lastItem (x :: xs)

/-- Loop output: `i: x` lines in order, `i` counting from the given start. -/
def enumOut : Nat → List Str → Str
  | _, [] => []
  | i, x :: xs => natStr i ++ ':' :: ' ' :: (x ++ '\n' :: enumOut (i + 1) xs)

/-- `lastItem` of a nonempty list is some element. -/
theorem lastItem_cons (x : Str) (xs : List Str) : ∃ z, lastItem (x :: xs) = some z := by
  induction xs generalizing x with
  | nil => exact ⟨x, rfl⟩
  | cons y ys ih => exact ih y

/-- Running the loop body over the mapped items produces the enumerated
output and leaves the `var` store at `c4locals`. -/
theorem c4_eachRun
    (inc : String → JsObj → JsObj → Option Str → RState → Except Err Str × RState)
    (p : String) :
    ∀ (xs : List Str) (i : Nat) (d l ctxv : JsObj) (cv : JsValue) (st : RState),
      List.lookup "$index" d = none → List.lookup "item" d = none →
      List.lookup "$index" l = some (.vNum i) →
      eachRun (fun fr2 st2 => execTpl inc p c4body fr2 st2) "item" (xs.map .vStr)
          ⟨d, l, ctxv, cv⟩ st =
        (.ok (enumOut i xs), ⟨d, c4locals xs i l, ctxv, cv⟩, st) := by
  intro xs
  induction xs with
  | nil => intro i d l ctxv cv st _ _ _; rfl
  | cons x xs ih =>
    intro i d l ctxv cv st hd1 hd2 hl
    rw [List.map_cons, eachRun_cons]
    have hset : setVar "item" (.vStr x) (⟨d, l, ctxv, cv⟩ : Frame) =
        ⟨d, insertKV "item" (.vStr x) l, ctxv, cv⟩ := by
      simp [setVar, hd2]
    rw [hset]
    have hidx : List.lookup "$index"
        (insertKV "item" (JsValue.vStr x) l) = some (.vNum i) := by
      rw [lookup_insertKV_ne _ _ _ (by decide), hl]
    have hbody : execTpl inc p c4body ⟨d, insertKV "item" (.vStr x) l, ctxv, cv⟩ st =
        (.ok (natStr i ++ ':' :: ' ' :: (x ++ ['\n'])),
          ⟨d, insertKV "item" (.vStr x) l, ctxv, cv⟩, st) := by
      rw [show c4body =
        Tpl.line [Seg.raw (Expr.varE "$index"), Seg.txt (':' :: [' ']),
          Seg.raw (Expr.varE "item")] from rfl, execTpl_line]
      simp only [evalSegs, evalSeg, evalExpr, getVar, hd1, hd2, hidx,
        lookup_insertKV_self, Except.bind, bind, Except.map, jsToString, natStr]
      simp
    rw [hbody]
    simp only []
    have hbump : bumpIndex (⟨d, insertKV "item" (.vStr x) l, ctxv, cv⟩ : Frame) =
        ⟨d, insertKV "$index" (.vNum (i + 1)) (insertKV "item" (.vStr x) l), ctxv, cv⟩ := by
      simp [bumpIndex, getVar, hd1, hidx, setVar]
    rw [hbump]
    rw [ih (i + 1) d _ ctxv cv st hd1 hd2 (lookup_insertKV_self _ _ _)]
    simp [c4locals, enumOut, Except.map]

/-- The `$index` entry of the final store. -/
theorem c4locals_index : ∀ (xs : List Str) (i : Nat) (l : JsObj),
    List.lookup "$index" l = some (.vNum i) →
    List.lookup "$index" (c4locals xs i l) = some (.vNum (i + xs.length)) := by
  intro xs
  induction xs with
  | nil => intro i l h; simpa using h
  | cons x xs ih =>
    intro i l h
    rw [show c4locals (x :: xs) i l =
      c4locals xs (i + 1) (insertKV "$index" (.vNum (i + 1)) (insertKV "item" (.vStr x) l))
      from rfl]
    rw [ih (i + 1) _ (lookup_insertKV_self _ _ _)]
    simp only [List.length_cons, Option.some.injEq, JsValue.vNum.injEq]
    omega

/-- The `item` entry of the final store. -/
theorem c4locals_item : ∀ (xs : List Str) (i : Nat) (l : JsObj),
    List.lookup "item" (c4locals xs i l) =
      match lastItem xs with
      | none => List.lookup "item" l
      | some x => some (.vStr x) := by
  intro xs
  induction xs with
  | nil => intro i l; rfl
  | cons x xs ih =>
    intro i l
    rw [show c4locals (x :: xs) i l =
      c4locals xs (i + 1) (insertKV "$index" (.vNum (i + 1)) (insertKV "item" (.vStr x) l))
      from rfl]
    rw [ih (i + 1)]
    cases xs with
    | nil =>
      simp only [lastItem]
      rw [lookup_insertKV_ne _ _ _ (by decide), lookup_insertKV_self]
    | cons y ys =>
      obtain ⟨z, hz⟩ := lastItem_cons y ys
      rw [hz]
      rw [show lastItem (x :: y :: ys) = lastItem (y :: ys) from rfl, hz]

/-- Executing the `@each` node itself: `var $index = 0` at entry (the reset),
the loop, and the function-scoped store afterwards. -/
theorem c4each_exec
    (inc : String → JsObj → JsObj → Option Str → RState → Except Err Str × RState)
    (p : String) (xs : List Str) (d l ctxv : JsObj) (cv : JsValue) (st : RState)
    (hd1 : List.lookup "$index" d = none) (hd2 : List.lookup "item" d = none)
    (hd3 : List.lookup "items" d = some (.vArr (xs.map .vStr))) :
    execTpl inc p c4each ⟨d, l, ctxv, cv⟩ st =
      (.ok (enumOut 0 xs),
        ⟨d, c4locals xs 0 (insertKV "$index" (.vNum 0) l), ctxv, cv⟩, st) := by
  rw [show c4each = Tpl.each "item" (Expr.varE "items") c4body from rfl, execTpl_each]
  simp only [evalExpr, getVar, hd3]
  have hset : setVar "$index" (.vNum 0) (⟨d, l, ctxv, cv⟩ : Frame) =
      ⟨d, insertKV "$index" (.vNum 0) l, ctxv, cv⟩ := by
    simp [setVar, hd1]
  rw [hset]
  exact c4_eachRun inc p xs 0 d _ ctxv cv st hd1 hd2 (lookup_insertKV_self _ _ _)



/-- C4 amended: for every item list, `$index` takes the values `0..N-1` in
order exactly once per element, is reset to zero at each loop entry (the
second loop starts at `0` again) and incremented at each `@end`; however the
bindings `item` and `$index` are function-scoped `var`s of the generated
routine, so after the matching `@end` they remain visible within the same
component render, with values `N` and the last element (`undefined` for an
empty list) — they do not leak into other components. -/
theorem c4_each_semantics : ∀ xs : List Str,
    (renderPage c4env "p" (c4data xs) []).1 =
      .ok (enumOut 0 xs ++ (enumOut 0 xs ++ (natStr xs.length ++ '\n' ::
        ((match lastItem xs with
          | none => "undefined".toList
          | some x => x) ++ ['\n'])))) := by
  intro xs
  unfold renderPage
  rw [show MAX_RENDER_DEPTH + 1 = 100 + 1 from rfl, renderComponent_succ,
    if_neg (by decide)]
  have henv : c4env "p" = some c4page := by simp [c4env]
  simp only [renderComponentInner, henv]
  rw [show recordAssets "p" c4page ⟨⟨[], [], []⟩, 1⟩ = ⟨⟨[], [], []⟩, 1⟩ from rfl]
  have hfr : innerFrame c4page (c4data xs) [] none =
      ⟨[("items", JsValue.vArr (xs.map .vStr)), ("$context", JsValue.vObj [])],
       [("item", JsValue.vUndef), ("$index", JsValue.vUndef),
        ("item", JsValue.vUndef), ("$index", JsValue.vUndef)], [], JsValue.vStr []⟩ := rfl
  rw [hfr]
  rw [show c4page.template = Tpl.seq c4each (Tpl.seq c4each c4tail) from rfl]
  rw [execTpl_seq]
  rw [c4each_exec _ "p" xs
    [("items", JsValue.vArr (xs.map .vStr)), ("$context", JsValue.vObj [])]
    [("item", JsValue.vUndef), ("$index", JsValue.vUndef),
     ("item", JsValue.vUndef), ("$index", JsValue.vUndef)]
    [] (JsValue.vStr []) ⟨⟨[], [], []⟩, 1⟩ rfl rfl rfl]
  simp only []
  rw [execTpl_seq]
  rw [c4each_exec _ "p" xs
    [("items", JsValue.vArr (xs.map .vStr)), ("$context", JsValue.vObj [])]
    (c4locals xs 0 (insertKV "$index" (.vNum 0)
      [("item", JsValue.vUndef), ("$index", JsValue.vUndef),
       ("item", JsValue.vUndef), ("$index", JsValue.vUndef)]))
    [] (JsValue.vStr []) ⟨⟨[], [], []⟩, 1⟩ rfl rfl rfl]
  simp only []
  rw [show c4tail =
    Tpl.seq (Tpl.line [Seg.raw (Expr.varE "$index")])
      (Tpl.line [Seg.raw (Expr.varE "item")]) from rfl]
  rw [execTpl_seq, execTpl_line]
  have hidx2 : List.lookup "$index"
      (c4locals xs 0 (insertKV "$index" (.vNum 0)
        (c4locals xs 0 (insertKV "$index" (.vNum 0)
          [("item", JsValue.vUndef), ("$index", JsValue.vUndef),
           ("item", JsValue.vUndef), ("$index", JsValue.vUndef)])))) =
      some (.vNum (0 + xs.length)) :=
    c4locals_index xs 0 _ (lookup_insertKV_self _ _ _)
  simp only [evalSegs, evalSeg, evalExpr, getVar, hidx2, Except.bind, bind, Except.map]
  simp only [show (List.lookup "$index"
      ([("items", JsValue.vArr (xs.map .vStr)), ("$context", JsValue.vObj [])] : JsObj)) =
      none from rfl]
  simp only [execTpl_line, evalSegs, evalSeg, evalExpr, getVar, Except.bind, bind,
    Except.map]
  simp only [show (List.lookup "item"
      ([("items", JsValue.vArr (xs.map .vStr)), ("$context", JsValue.vObj [])] : JsObj)) =
      none from rfl]
  rw [c4locals_item]
  cases hlast : lastItem xs with
  | none =>
    have hxs : xs = [] := by
      cases xs with
      | nil => rfl
      | cons y ys =>
        obtain ⟨z, hz⟩ := lastItem_cons y ys
        rw [hlast] at hz
        exact absurd hz (by simp)
    subst hxs
    simp [c4locals, enumOut, natStr, jsToString, wrapErr, insertKV, List.lookup,
      lookup_insertKV_ne, lookup_insertKV_self]
  | some z =>
    simp only [jsToString]
    simp [natStr, jsToString, wrapErr]



/-- C4 counterexample: the claim says the loop-scoped bindings `item` and
`$index` do not leak after the matching `@end`, yet rendering the page whose
template is the loop (twice) followed by `{{{ $index }}}` and `{{{ item }}}`
lines over `items = ["a", "b"]` yields `"0: a\n1: b\n0: a\n1: b\n2\nb\n"`:
after `@end` the index variable is still bound (showing `2`) and the item
variable is still bound (showing `b`), because the generated code declares
them with function-scoped `var`. -/
theorem c4_leak_counterexample :
    (renderPage c4env "p" (c4data ['a' :: [], 'b' :: []]) []).1 =
      .ok "0: a\n1: b\n0: a\n1: b\n2\nb\n".toList := rfl



/-! ## Claim C1 -/

/-- `indexOf` characterization: the returned index is an occurrence and the
first one. -/
theorem findSub_spec (pat : Str) : ∀ (s : Str) (i : Nat), findSub pat s = some i →
    pat.isPrefixOf (s.drop i) = true ∧ ∀ j < i, pat.isPrefixOf (s.drop j) = false := by
  intro s
  induction s with
  | nil =>
    intro i h
    by_cases hp : pat.isPrefixOf ([] : Str)
    · simp only [findSub, if_pos hp, Option.some.injEq] at h
      subst h
      exact ⟨by simpa using hp, by omega⟩
    · simp [findSub, hp] at h
  | cons c t ih =>
    intro i h
    by_cases hp : pat.isPrefixOf (c :: t)
    · simp only [findSub, if_pos hp, Option.some.injEq] at h
      subst h
      exact ⟨by simpa using hp, by omega⟩
    · simp only [findSub, if_neg hp, Option.map_eq_some'] at h
      obtain ⟨i2, hi2, hplus⟩ := h
      subst hplus
      obtain ⟨h1, h2⟩ := ih i2 hi2
      refine ⟨by simpa using h1, ?_⟩
      intro j hj
      cases j with
      | zero => simpa using (Bool.eq_false_iff.mpr (by simpa using hp))
      | succ j2 =>
        rw [List.drop_succ_cons]
        exact h2 j2 (by omega)

/-- C1: if a page's component tree collected `@head` content but the rendered
HTML contains no `</head>` tag, the documented render pipeline fails with the
dedicated `TmlRenderError`; and when the HTML does contain `</head>`,
`injectAssets` inserts the head content strictly before the first `</head>`
occurrence, leaving the rest of the document intact. -/
theorem c1_head_requirement :
    (∀ (env : Env) (p : String) (data ctx : JsObj) (cssMin jsBundle : Str → Str)
      (html : Str) (st : RState),
      renderPage env p data ctx = (.ok html, st) →
      st.collector.headTags ≠ [] →
      findSub headCloseTag html = none →
      renderDocument env p data ctx cssMin jsBundle =
        .error (.renderError headRequiredMsg p 0))
    ∧ (∀ (html : Str) (a : AssetTags) (i : Nat),
      a.headTag ≠ [] → a.cssTag = [] → a.jsTag = [] →
      findSub headCloseTag html = some i →
      injectAssets html a = html.take i ++ a.headTag ++ '\n' :: html.drop i
        ∧ headCloseTag.isPrefixOf (html.drop i) = true
        ∧ ∀ j < i, headCloseTag.isPrefixOf (html.drop j) = false) := by
  constructor
  · intro env p data ctx cssMin jsBundle html st hpage hhead hnone
    unfold renderDocument
    rw [hpage]
    simp only []
    rw [if_pos ⟨hhead, hnone⟩]
  · intro html a i hhead hcss hjs hfind
    obtain ⟨h1, h2⟩ := findSub_spec headCloseTag html i hfind
    refine ⟨?_, h1, h2⟩
    unfold injectAssets
    rw [hfind]
    simp only [if_pos hhead, hcss, hjs]
    have hne : a.headTag ++ ['\n'] ≠ [] := by simp
    simp [hne]
/-- The witness page: an `@head` block and a line, no `</head>` anywhere. -/
def c1env : Env := fun q =>
  if q = "pg" then
    some ⟨Tpl.seq (Tpl.headD (Tpl.line [Seg.txt "<meta>".toList]))
      (Tpl.line [Seg.txt ('h' :: ['i'])]), [], []⟩
  else none

/-- Witness for C1: the concrete page fails with the dedicated error, and a
concrete injection lands strictly before the first `</head>`. -/
theorem c1_head_requirement_witness :
    renderDocument c1env "pg" [] [] id id =
      .error (.renderError headRequiredMsg "pg" 0)
    ∧ injectAssets "<head></head>".toList ⟨"<meta>".toList, [], []⟩ =
      ("<head>".toList ++ "<meta>".toList ++ '\n' :: "</head>".toList) :=
  ⟨c1_head_requirement.1 c1env "pg" [] [] id id ('h' :: ['i', '\n'])
      ⟨⟨[], [], [("pg", "<meta>\n".toList)]⟩, 0⟩ rfl (by simp) rfl,
    by
      have h := (c1_head_requirement.2 "<head></head>".toList
        ⟨"<meta>".toList, [], []⟩ 6 (by decide) rfl rfl rfl).1
      rw [h]
      rfl⟩


end Tml
